import Mathlib

/-!
Verification development for the HC-SMoE expert-grouping-and-merging engine
(`hcsmoe/merging/grouping_mixtral.py`).  Floating-point tensors are modelled
over `ℚ`; tensors are lists (vectors) and lists of lists (matrices), and the
in-place tensor surgery of the Python code is modelled by explicit state
passing.  Aliasing-sensitive behaviour (deep copies versus reference sharing
of expert modules) is modelled by a small heap: addresses are indices into a
list, and Python object references are those indices.
-/

namespace HCSMoE

/-- Modelled from the spec: the constant `FP32_EPS` is imported from
`hcsmoe.utils.constants`, whose source file is not part of the snapshot; the
spec describes it as "a small fixed epsilon added to any weighting
denominator" for numerical stability.  We model it as the float32 machine
epsilon `2⁻²³`, a fixed positive rational. -/
def FP32_EPS : ℚ := 1 / 2 ^ 23

theorem FP32_EPS_pos : 0 < FP32_EPS := by norm_num [FP32_EPS]

/-- Index of the first maximal element of a list, 0 on the empty list.
Models `torch.argmax` on a 1-D tensor (ties resolve to the first index). -/
def argmaxIdx : List ℚ → ℕ
  | [] => 0
  | x :: xs => if xs.all (fun y => decide (y ≤ x)) then 0 else argmaxIdx xs + 1

/-- Index of the first minimal element of a list, 0 on the empty list.
Models `torch.argmin` on a 1-D tensor (ties resolve to the first index). -/
def argminIdx : List ℚ → ℕ
  | [] => 0
  | x :: xs => if xs.all (fun y => decide (x ≤ y)) then 0 else argminIdx xs + 1

theorem getD_mem_of_lt (l : List ℚ) (k : ℕ) (hk : k < l.length) : l.getD k 0 ∈ l := by
  rw [List.getD_eq_getElem l 0 hk]
  exact List.getElem_mem hk

theorem exists_gt_of_not_all_le (x : ℚ) (xs : List ℚ)
    (hall : ¬(xs.all (fun y => decide (y ≤ x)) = true)) :
    ∃ y ∈ xs, x < y := by
  rw [Bool.not_eq_true, List.all_eq_false] at hall
  obtain ⟨y, hy, hpy⟩ := hall
  exact ⟨y, hy, lt_of_not_le (fun hle => hpy (decide_eq_true hle))⟩

theorem exists_lt_of_not_all_ge (x : ℚ) (xs : List ℚ)
    (hall : ¬(xs.all (fun y => decide (x ≤ y)) = true)) :
    ∃ y ∈ xs, y < x := by
  rw [Bool.not_eq_true, List.all_eq_false] at hall
  obtain ⟨y, hy, hpy⟩ := hall
  exact ⟨y, hy, lt_of_not_le (fun hle => hpy (decide_eq_true hle))⟩

theorem argmaxIdx_lt_length (l : List ℚ) (h : l ≠ []) : argmaxIdx l < l.length := by
  induction l with
  | nil => exact absurd rfl h
  | cons x xs ih =>
    simp only [argmaxIdx, List.length_cons]
    split
    · omega
    · rename_i hall
      have hne : xs ≠ [] := by
        rintro rfl; simp at hall
      have := ih hne
      omega

theorem argminIdx_lt_length (l : List ℚ) (h : l ≠ []) : argminIdx l < l.length := by
  induction l with
  | nil => exact absurd rfl h
  | cons x xs ih =>
    simp only [argminIdx, List.length_cons]
    split
    · omega
    · rename_i hall
      have hne : xs ≠ [] := by
        rintro rfl; simp at hall
      have := ih hne
      omega

theorem getD_argmaxIdx_ge (l : List ℚ) (k : ℕ) (hk : k < l.length) :
    l.getD k 0 ≤ l.getD (argmaxIdx l) 0 := by
  induction l generalizing k with
  | nil => simp at hk
  | cons x xs ih =>
    simp only [argmaxIdx]
    split
    · rename_i hall
      rcases k with _ | k
      · simp
      · simp only [List.getD_cons_succ, List.getD_cons_zero]
        have hk' : k < xs.length := by simpa using hk
        have hmem : xs.getD k 0 ∈ xs := getD_mem_of_lt xs k hk'
        exact of_decide_eq_true (List.all_eq_true.mp hall _ hmem)
    · rename_i hall
      obtain ⟨y, hy, hxy⟩ := exists_gt_of_not_all_le x xs hall
      rcases k with _ | k
      · simp only [List.getD_cons_succ, List.getD_cons_zero]
        obtain ⟨j, hj, rfl⟩ := List.getElem_of_mem hy
        have hgd : xs.getD j 0 = xs[j] := List.getD_eq_getElem xs 0 hj
        have := ih j hj
        rw [hgd] at this
        exact le_trans (le_of_lt hxy) this
      · have hk' : k < xs.length := by simpa using hk
        simp only [List.getD_cons_succ]
        exact ih k hk'

theorem getD_argminIdx_le (l : List ℚ) (k : ℕ) (hk : k < l.length) :
    l.getD (argminIdx l) 0 ≤ l.getD k 0 := by
  induction l generalizing k with
  | nil => simp at hk
  | cons x xs ih =>
    simp only [argminIdx]
    split
    · rename_i hall
      rcases k with _ | k
      · simp
      · simp only [List.getD_cons_succ, List.getD_cons_zero]
        have hk' : k < xs.length := by simpa using hk
        have hmem : xs.getD k 0 ∈ xs := getD_mem_of_lt xs k hk'
        exact of_decide_eq_true (List.all_eq_true.mp hall _ hmem)
    · rename_i hall
      obtain ⟨y, hy, hxy⟩ := exists_lt_of_not_all_ge x xs hall
      rcases k with _ | k
      · simp only [List.getD_cons_succ, List.getD_cons_zero]
        obtain ⟨j, hj, rfl⟩ := List.getElem_of_mem hy
        have hgd : xs.getD j 0 = xs[j] := List.getD_eq_getElem xs 0 hj
        have := ih j hj
        rw [hgd] at this
        exact le_trans this (le_of_lt hxy)
      · have hk' : k < xs.length := by simpa using hk
        simp only [List.getD_cons_succ]
        exact ih k hk'

/-!
## Dynamic per-layer group apportionment
Embedding of `ExpertsGrouperForMixtral._assign_num_groups_per_layer`
(`grouping_mixtral.py`, lines 360-407).
-/

/-- Descending sort of a rational list; models
`torch.sort(all_usage_frequency, descending=True)[0]`. -/
def sortDescQ (l : List ℚ) : List ℚ := List.insertionSort (fun a b : ℚ => b ≤ a) l

/-- Number of entries at or above a threshold; models
`torch.sum((usage_frequency >= frequency_threshold).long()).item()`. -/
def countAtLeast (t : ℚ) (u : List ℚ) : ℕ := u.countP (fun x => decide (t ≤ x))

/-- The requested total group budget:
`num_average_groups * num_grouping_layers + num_experts * (num_sparse_layers - num_grouping_layers)`. -/
def totalNumGroupsRaw (navg nE nSparse nMerging : ℕ) : ℕ :=
  navg * nMerging + nE * (nSparse - nMerging)

/-- The index used to pick the frequency threshold: the raw budget, reduced by
one in the edge case `num_average_groups == num_experts` (which otherwise
indexes one past the end of the pooled usage list). -/
def thresholdIndex (navg nE nSparse nMerging : ℕ) : ℕ :=
  if navg = nE then totalNumGroupsRaw navg nE nSparse nMerging - 1
  else totalNumGroupsRaw navg nE nSparse nMerging

/-- Embedding of `_assign_num_groups_per_layer`: pool every layer's usage
vector, sort descending, read the threshold at `thresholdIndex`, and give each
layer as many groups as it has experts with usage at or above the threshold.
Out-of-range indexing (an `IndexError` in the Python code) is `none`. -/
def assignNumGroupsPerLayer (navg nE : ℕ) (usage : List (List ℚ)) (nMerging : ℕ) :
    Option (List ℕ) :=
  if thresholdIndex navg nE usage.length nMerging < (sortDescQ usage.flatten).length then
    some (usage.map (fun u => countAtLeast
      ((sortDescQ usage.flatten).getD (thresholdIndex navg nE usage.length nMerging) 0) u))
  else none

instance : IsTotal ℚ (fun a b : ℚ => b ≤ a) := ⟨fun a b => le_total b a⟩

instance : IsTrans ℚ (fun a b : ℚ => b ≤ a) := ⟨fun _ _ _ hab hbc => le_trans hbc hab⟩

theorem sortDescQ_sorted (l : List ℚ) : List.Sorted (fun a b : ℚ => b ≤ a) (sortDescQ l) :=
  List.sorted_insertionSort (fun a b : ℚ => b ≤ a) l

theorem sortDescQ_perm (l : List ℚ) : (sortDescQ l).Perm l :=
  List.perm_insertionSort _ l

/-- On a strictly descending (sorted, duplicate-free) list, exactly `T + 1`
entries are at or above the entry at index `T`. -/
theorem countP_getD_sorted_nodup (s : List ℚ) (T : ℕ)
    (hs : List.Sorted (fun a b : ℚ => b ≤ a) s) (hnd : s.Nodup) (hT : T < s.length) :
    s.countP (fun x => decide (s.getD T 0 ≤ x)) = T + 1 := by
  induction s generalizing T with
  | nil => simp at hT
  | cons x xs ih =>
    obtain ⟨hx, hxs⟩ := List.sorted_cons.mp hs
    obtain ⟨hnx, hnxs⟩ := List.nodup_cons.mp hnd
    rcases T with _ | T
    · simp only [List.getD_cons_zero]
      rw [List.countP_cons_of_pos _ _ (by simp)]
      have hzero : xs.countP (fun y => decide (x ≤ y)) = 0 := by
        rw [List.countP_eq_zero]
        intro a ha
        have hax : a ≤ x := hx a ha
        have hne : a ≠ x := fun h => hnx (h ▸ ha)
        simp only [decide_eq_true_eq]
        exact not_le.mpr (lt_of_le_of_ne hax hne)
      omega
    · have hT' : T < xs.length := by simpa using hT
      simp only [List.getD_cons_succ]
      have hmem : xs.getD T 0 ∈ xs := getD_mem_of_lt xs T hT'
      rw [List.countP_cons, ih T hxs hnxs hT']
      have hle : xs.getD T 0 ≤ x := hx _ hmem
      simp only [List.getD, List.get?_eq_getElem?] at hle
      simp [hle]

/-- Claim C1 is false as stated: with the pooled usage values
`[40,30,20,10]` (layer 0) and `[8,6,4,2]` (layer 1), two layers both
merging and a requested average of 2 groups per layer, the requested total
is 4, the threshold is the pooled value at index 4 (namely 8), and the
layers receive 4 and 1 groups: 5 experts in total are at or above the
threshold, not the requested 4. -/
theorem assignNumGroups_total_ne_requested :
    assignNumGroupsPerLayer 2 4 [[40, 30, 20, 10], [8, 6, 4, 2]] 2 = some [4, 1] ∧
    totalNumGroupsRaw 2 4 2 2 = 4 ∧ ([4, 1] : List ℕ).sum ≠ 4 := by
  refine ⟨by decide, by decide, by decide⟩

/-- Amended claim C1: the chosen threshold is the pooled usage value at
index `thresholdIndex` of the descending sort, so when all usage values are
distinct the total number of experts at or above it across all layers is
`thresholdIndex + 1` — one MORE than the requested total (the raw budget,
or the raw budget minus one in the `num_average_groups == num_experts` edge
case, which exists to keep the index in bounds); each layer's group count
equals the number of its experts with usage at or above the threshold. -/
theorem assignNumGroupsPerLayer_spec (navg nE nMerging : ℕ) (usage : List (List ℚ))
    (hnd : usage.flatten.Nodup)
    (hT : thresholdIndex navg nE usage.length nMerging < usage.flatten.length) :
    ∃ counts : List ℕ,
      assignNumGroupsPerLayer navg nE usage nMerging = some counts ∧
      counts = usage.map (fun u =>
        countAtLeast ((sortDescQ usage.flatten).getD
          (thresholdIndex navg nE usage.length nMerging) 0) u) ∧
      counts.sum = thresholdIndex navg nE usage.length nMerging + 1 := by
  have hlen : (sortDescQ usage.flatten).length = usage.flatten.length :=
    (sortDescQ_perm usage.flatten).length_eq
  have hT' : thresholdIndex navg nE usage.length nMerging < (sortDescQ usage.flatten).length := by
    rw [hlen]; exact hT
  refine ⟨_, ?_, rfl, ?_⟩
  · unfold assignNumGroupsPerLayer
    rw [if_pos hT']
  · set T := thresholdIndex navg nE usage.length nMerging with hTdef
    set θ := (sortDescQ usage.flatten).getD T 0 with hθ
    have hsum : (usage.map (fun u => countAtLeast θ u)).sum
        = usage.flatten.countP (fun x => decide (θ ≤ x)) := by
      rw [List.countP_flatten]
      simp [countAtLeast]
    rw [hsum]
    rw [← (sortDescQ_perm usage.flatten).countP_eq (fun x => decide (θ ≤ x))]
    have hnd' : (sortDescQ usage.flatten).Nodup :=
      ((sortDescQ_perm usage.flatten).nodup_iff).mpr hnd
    exact countP_getD_sorted_nodup _ T (sortDescQ_sorted _) hnd' hT'

/-- Witness for `assignNumGroupsPerLayer_spec` at a concrete input. -/
theorem assignNumGroupsPerLayer_spec_witness :
    ∃ counts : List ℕ,
      assignNumGroupsPerLayer 2 4 [[40, 30, 20, 10], [8, 6, 4, 2]] 2 = some counts ∧
      counts = [[40, 30, 20, 10], [8, 6, 4, 2]].map (fun u : List ℚ =>
        countAtLeast ((sortDescQ ([[40, 30, 20, 10], [8, 6, 4, 2]] : List (List ℚ)).flatten).getD
          (thresholdIndex 2 4 2 2) 0) u) ∧
      counts.sum = thresholdIndex 2 4 2 2 + 1 := by
  have h := assignNumGroupsPerLayer_spec 2 4 2 [[40, 30, 20, 10], [8, 6, 4, 2]]
    (by decide) (by decide)
  simpa using h

/-!
## A heap model for Python object references
Python dictionaries/tensors are heap objects; a reference is an index into a
store.  `deepcopy` allocates fresh addresses holding equal values, so writes
through the copy cannot reach the original; returning a stored reference
directly would alias.  This distinction is what the accessor claims are
about (`grouping_mixtral.py`, lines 321-338).
-/

/-- A value held in the grouper's per-layer state dictionaries: a group-label
vector, a usage-frequency vector, or a similarity matrix. -/
inductive StateVal where
  | labels (l : List ℕ)
  | usage (u : List ℚ)
  | sim (m : List (List ℚ))
deriving DecidableEq

/-- Allocate a fresh object, returning the new heap and the fresh address. -/
def halloc {α : Type} (h : List α) (v : α) : List α × ℕ := (h ++ [v], h.length)

/-- Write through a reference (in-place mutation of the referenced object). -/
def hwrite {α : Type} (h : List α) (r : ℕ) (v : α) : List α := h.set r v

/-- Read through a reference. -/
def hread {α : Type} (h : List α) (r : ℕ) (d : α) : α := h.getD r d

/-- Allocate a list of objects (a `deepcopy` of a dict of tensors allocates
one fresh object per entry). -/
def hallocList {α : Type} : List α → List α → List α × List ℕ
  | h, [] => (h, [])
  | h, v :: vs =>
    let p := hallocList (h ++ [v]) vs
    (p.1, h.length :: p.2)

theorem hallocList_fresh {α : Type} (h : List α) (vs : List α) :
    ∀ r ∈ (hallocList h vs).2, h.length ≤ r := by
  induction vs generalizing h with
  | nil => simp [hallocList]
  | cons v vs ih =>
    intro r hr
    simp only [hallocList, List.mem_cons] at hr
    rcases hr with rfl | hr
    · exact le_refl _
    · have := ih (h ++ [v]) r hr
      simp only [List.length_append, List.length_cons, List.length_nil] at this
      omega

theorem hallocList_read_lt {α : Type} (h : List α) (vs : List α) (a : ℕ) (d : α)
    (ha : a < h.length) : hread (hallocList h vs).1 a d = hread h a d := by
  induction vs generalizing h with
  | nil => simp [hallocList]
  | cons v vs ih =>
    simp only [hallocList]
    rw [ih (h ++ [v]) (by simp; omega)]
    simp only [hread]
    exact List.getD_append h [v] d a ha

theorem hwrite_read_ne {α : Type} (h : List α) (r a : ℕ) (v d : α) (hne : a ≠ r) :
    hread (hwrite h r v) a d = hread h a d := by
  simp only [hread, hwrite, List.getD_eq_getElem?_getD]
  rw [List.getElem?_set_ne (fun he => hne he.symm)]

/-- References into the grouper's internal per-layer state: one address per
layer for `_group_state_dict`, `_usage_frequency_state_dict` and
`_similarity_state_dict`. -/
structure GrouperRefs where
  groupRefs : List ℕ
  usageRefs : List ℕ
  simRefs : List ℕ
deriving DecidableEq

/-- Embedding of `ExpertsGrouperForMixtral.group_state_dict`:
`deepcopy(self._group_state_dict)` — fresh addresses holding the current
values of every layer's label tensor. -/
def group_state_dict (h : List StateVal) (g : GrouperRefs) : List StateVal × List ℕ :=
  hallocList h (g.groupRefs.map (fun r => hread h r (StateVal.labels [])))

/-- Embedding of `ExpertsGrouperForMixtral.usage_frequency_state_dict`:
`deepcopy(self._usage_frequency_state_dict)`. -/
def usage_frequency_state_dict (h : List StateVal) (g : GrouperRefs) :
    List StateVal × List ℕ :=
  hallocList h (g.usageRefs.map (fun r => hread h r (StateVal.usage [])))

/-- Embedding of `ExpertsGrouperForMixtral.similarity_state_dict`:
`deepcopy(self._similarity_state_dict)`. -/
def similarity_state_dict (h : List StateVal) (g : GrouperRefs) :
    List StateVal × List ℕ :=
  hallocList h (g.simRefs.map (fun r => hread h r (StateVal.sim [])))

/-- Embedding of `ExpertsGrouperForMixtral.get_similarity_matrix`:
`deepcopy(self._similarity_state_dict[mlp_name])` — a fresh address holding
the requested layer's similarity matrix. -/
def get_similarity_matrix (h : List StateVal) (g : GrouperRefs) (layer : ℕ) :
    List StateVal × ℕ :=
  halloc h (hread h (g.simRefs.getD layer 0) (StateVal.sim []))

/-- All internal references of the grouper, in one list. -/
def internalRefs (g : GrouperRefs) : List ℕ := g.groupRefs ++ g.usageRefs ++ g.simRefs

theorem hallocList_mutation_frame (h : List StateVal) (vs : List StateVal)
    (a : ℕ) (ha : a < h.length) (d : StateVal) :
    ∀ r ∈ (hallocList h vs).2, ∀ v : StateVal,
      hread (hwrite (hallocList h vs).1 r v) a d = hread h a d := by
  intro r hr v
  have hfresh : h.length ≤ r := hallocList_fresh h vs r hr
  have hne : a ≠ r := by omega
  rw [hwrite_read_ne _ _ _ _ _ hne]
  exact hallocList_read_lt h vs a d ha

/-- Claim C10: the public accessors `group_state_dict`,
`usage_frequency_state_dict`, `similarity_state_dict` and
`get_similarity_matrix` each return a deep copy: writing any value through
any returned reference leaves every internal state object of the grouper
(group labels, usage frequencies, similarity matrices, for every layer)
reading exactly as before. -/
theorem accessors_return_deep_copies (h : List StateVal) (g : GrouperRefs)
    (hg : ∀ r ∈ internalRefs g, r < h.length) :
    (∀ r ∈ (group_state_dict h g).2, ∀ v : StateVal, ∀ a ∈ internalRefs g, ∀ d : StateVal,
      hread (hwrite (group_state_dict h g).1 r v) a d = hread h a d) ∧
    (∀ r ∈ (usage_frequency_state_dict h g).2, ∀ v : StateVal, ∀ a ∈ internalRefs g,
      ∀ d : StateVal,
      hread (hwrite (usage_frequency_state_dict h g).1 r v) a d = hread h a d) ∧
    (∀ r ∈ (similarity_state_dict h g).2, ∀ v : StateVal, ∀ a ∈ internalRefs g, ∀ d : StateVal,
      hread (hwrite (similarity_state_dict h g).1 r v) a d = hread h a d) ∧
    (∀ layer : ℕ, ∀ v : StateVal, ∀ a ∈ internalRefs g, ∀ d : StateVal,
      hread (hwrite (get_similarity_matrix h g layer).1 (get_similarity_matrix h g layer).2 v)
        a d = hread h a d) := by
  refine ⟨?_, ?_, ?_, ?_⟩
  · intro r hr v a ha d
    exact hallocList_mutation_frame h _ a (hg a ha) d r hr v
  · intro r hr v a ha d
    exact hallocList_mutation_frame h _ a (hg a ha) d r hr v
  · intro r hr v a ha d
    exact hallocList_mutation_frame h _ a (hg a ha) d r hr v
  · intro layer v a ha d
    have hfresh : (get_similarity_matrix h g layer).2 = h.length := rfl
    have hne : a ≠ (get_similarity_matrix h g layer).2 := by
      rw [hfresh]; have := hg a ha; omega
    rw [hwrite_read_ne _ _ _ _ _ hne]
    show hread (h ++ [_]) a d = hread h a d
    simp only [hread]
    exact List.getD_append h _ d a (hg a ha)

/-- Witness for `accessors_return_deep_copies` at a concrete one-layer
grouper: overwriting the copy returned by `group_state_dict` (the fresh
address `3`) leaves the stored labels at address `0` unchanged. -/
theorem accessors_return_deep_copies_witness :
    hread (hwrite (group_state_dict
        [StateVal.labels [0, 1], StateVal.usage [1, 2], StateVal.sim [[1, 0], [0, 1]]]
        (GrouperRefs.mk [0] [1] [2])).1 3 (StateVal.labels [5, 5])) 0 (StateVal.labels [])
      = hread [StateVal.labels [0, 1], StateVal.usage [1, 2], StateVal.sim [[1, 0], [0, 1]]]
          0 (StateVal.labels []) :=
  (accessors_return_deep_copies
    [StateVal.labels [0, 1], StateVal.usage [1, 2], StateVal.sim [[1, 0], [0, 1]]]
    (GrouperRefs.mk [0] [1] [2]) (by decide)).1 3 (by decide) (StateVal.labels [5, 5])
    0 (by decide) (StateVal.labels [])

/-!
## Expert modules and the usage-frequency-weighted merge
Embedding of `_merge_mlp_experts_by_usage_frequency_weighting`
(`grouping_mixtral.py`, lines 2143-2176) and of the singleton path of the
strategy dispatcher `_merge_moe_experts_within_and_across_models`
(lines 3182-3187 and 3271-3278).  Weight matrices are modelled flattened,
as rational vectors; expert modules live in a heap so that the
reference-sharing of merged experts is observable.
-/

/-- An expert feed-forward module: its three weight matrices (flattened). -/
structure ExpertW where
  w1 : List ℚ
  w2 : List ℚ
  w3 : List ℚ
deriving DecidableEq

def defaultExpert : ExpertW := ⟨[], [], []⟩

/-- The expert table of an MoE block: `slots` maps each expert index to the
address of its module in the module heap (Python: `ffn.experts[i]`). -/
structure MoEHeapState where
  heap : List ExpertW
  slots : List ℕ
deriving DecidableEq

/-- The module currently referenced by expert slot `i`. -/
def expertAt (st : MoEHeapState) (i : ℕ) : ExpertW :=
  hread st.heap (st.slots.getD i 0) defaultExpert

def scaleVec (c : ℚ) (v : List ℚ) : List ℚ := v.map (fun x => c * x)

def addVec (a b : List ℚ) : List ℚ := List.zipWith (fun x y => x + y) a b

def divVec (v : List ℚ) (c : ℚ) : List ℚ := v.map (fun x => x / c)

/-- Elementwise sum of a stack of equally-shaped vectors
(`torch.sum(torch.stack ws, dim=0)`). -/
def sumVecs : List (List ℚ) → List ℚ
  | [] => []
  | [v] => v
  | v :: vs => addVec v (sumVecs vs)

/-- One iteration of the per-group loop of
`_merge_mlp_experts_by_usage_frequency_weighting`: each member's matrices
are scaled by its usage frequency, summed, divided by the group's total
usage plus `FP32_EPS`, written into the first member's module, and every
remaining member's slot is re-pointed at the first member's module. -/
def mergeGroupFreq (st : MoEHeapState) (expert_indices : List ℕ) (usage : List ℚ) :
    MoEHeapState :=
  match expert_indices with
  | [] => st
  | first :: rest =>
    let members := (first :: rest).map (fun e => expertAt st e)
    let us := (first :: rest).map (fun e => usage.getD e 0)
    let den := us.sum + FP32_EPS
    let m : ExpertW :=
      ⟨divVec (sumVecs (List.zipWith scaleVec us (members.map ExpertW.w1))) den,
       divVec (sumVecs (List.zipWith scaleVec us (members.map ExpertW.w2))) den,
       divVec (sumVecs (List.zipWith scaleVec us (members.map ExpertW.w3))) den⟩
    let firstRef := st.slots.getD first 0
    ⟨hwrite st.heap firstRef m, rest.foldl (fun sl e => sl.set e firstRef) st.slots⟩

/-- The expert indices carrying a given group label
(`torch.where(group_labels == label)[0]`). -/
def groupIndices (group_labels : List ℕ) (label : ℕ) : List ℕ :=
  (List.range group_labels.length).filter (fun i => group_labels.getD i 0 = label)

/-- The sorted distinct labels of `group_labels` (`group_labels.unique()`). -/
def uniqueSorted (group_labels : List ℕ) : List ℕ :=
  (List.range (group_labels.foldr max 0 + 1)).filter (fun l => group_labels.contains l)

/-- Embedding of `_merge_mlp_experts_by_usage_frequency_weighting`: the
per-group merge applied to every distinct group label in turn. -/
def mergeMlpExpertsByUsageFrequencyWeighting (st : MoEHeapState)
    (group_labels : List ℕ) (usage : List ℚ) : MoEHeapState :=
  (uniqueSorted group_labels).foldl
    (fun s label => mergeGroupFreq s (groupIndices group_labels label) usage) st

/-- Embedding of the per-group body of the strategy dispatcher
`_merge_moe_experts_within_and_across_models` on its non-dominant path (for
any merge strategy other than `unmerge`/`prune`, abstracted as `strategy`):
a single-member group takes `merged_expert = moe.experts[expert_indices[0]]`
and the final write-back block is skipped (guard
`elif expert_indices.shape[0] != 1`), so the state is untouched; a larger
group has the strategy's result written into the first member's module and
the other members' slots re-pointed at it. -/
def mergeMoEExpertsGroupDispatch (strategy : List ExpertW → ExpertW)
    (st : MoEHeapState) (expert_indices : List ℕ) : MoEHeapState :=
  match expert_indices with
  | [] => st
  | [_] => st
  | first :: rest =>
    let merged := strategy ((first :: rest).map (fun e => expertAt st e))
    let firstRef := st.slots.getD first 0
    ⟨hwrite st.heap firstRef merged, rest.foldl (fun sl e => sl.set e firstRef) st.slots⟩

theorem hwrite_read_self {α : Type} (h : List α) (r : ℕ) (v d : α) (hr : r < h.length) :
    hread (hwrite h r v) r d = v := by
  simp only [hread, hwrite, List.getD_eq_getElem?_getD]
  rw [List.getElem?_set_self hr]
  rfl

/-- Claim C4 is false as stated: merging the singleton group `[0]` (usage
frequency 1) with the usage-frequency-weighted merge rescales the weights by
`1 / (1 + FP32_EPS)`, so the result is not bit-identical to the original
expert: the single weight entry `1` becomes `8388608/8388609`. -/
theorem freq_merge_singleton_not_identical :
    (expertAt (mergeGroupFreq ⟨[⟨[1], [1], [1]⟩], [0]⟩ [0] [1]) 0).w1
      = [(8388608 : ℚ) / 8388609] ∧
    ((8388608 : ℚ) / 8388609) ≠ 1 ∧
    (expertAt ⟨[⟨[1], [1], [1]⟩], [0]⟩ 0).w1 = [(1 : ℚ)] := by
  refine ⟨?_, by norm_num, by norm_num [expertAt, hread]⟩
  norm_num [mergeGroupFreq, expertAt, hread, hwrite, sumVecs, scaleVec, divVec, FP32_EPS]

/-- Amended claim C4: the strategy dispatcher
`_merge_moe_experts_within_and_across_models` passes a singleton group
through untouched (bit-identical weights for every expert slot), but the
usage-frequency-weighted merge `_merge_mlp_experts_by_usage_frequency_weighting`
does not: for a singleton group with usage frequency `u` it rewrites each of
the expert's three weight matrices to the original scaled by `u / (u + FP32_EPS)`,
which is bit-identical only in the limit of a vanishing epsilon. -/
theorem singleton_group_merge_spec (strategy : List ExpertW → ExpertW)
    (st : MoEHeapState) (e : ℕ)
    (hwf : st.slots.getD e 0 < st.heap.length) (usage : List ℚ) :
    mergeMoEExpertsGroupDispatch strategy st [e] = st ∧
    expertAt (mergeGroupFreq st [e] usage) e =
      ⟨divVec (scaleVec (usage.getD e 0) (expertAt st e).w1) (usage.getD e 0 + FP32_EPS),
       divVec (scaleVec (usage.getD e 0) (expertAt st e).w2) (usage.getD e 0 + FP32_EPS),
       divVec (scaleVec (usage.getD e 0) (expertAt st e).w3) (usage.getD e 0 + FP32_EPS)⟩ := by
  constructor
  · rfl
  · show expertAt ⟨hwrite st.heap (st.slots.getD e 0) _, st.slots⟩ e = _
    simp only [expertAt]
    rw [hwrite_read_self st.heap (st.slots.getD e 0) _ defaultExpert hwf]
    simp [sumVecs, List.sum_cons, List.sum_nil]

/-- Witness for `singleton_group_merge_spec` at a concrete input. -/
theorem singleton_group_merge_spec_witness :
    mergeMoEExpertsGroupDispatch (fun _ => defaultExpert) ⟨[⟨[1], [1], [1]⟩], [0]⟩ [0]
        = ⟨[⟨[1], [1], [1]⟩], [0]⟩ ∧
    expertAt (mergeGroupFreq ⟨[⟨[1], [1], [1]⟩], [0]⟩ [0] [1]) 0 =
      ⟨divVec (scaleVec (([1] : List ℚ).getD 0 0) (expertAt ⟨[⟨[1], [1], [1]⟩], [0]⟩ 0).w1)
         (([1] : List ℚ).getD 0 0 + FP32_EPS),
       divVec (scaleVec (([1] : List ℚ).getD 0 0) (expertAt ⟨[⟨[1], [1], [1]⟩], [0]⟩ 0).w2)
         (([1] : List ℚ).getD 0 0 + FP32_EPS),
       divVec (scaleVec (([1] : List ℚ).getD 0 0) (expertAt ⟨[⟨[1], [1], [1]⟩], [0]⟩ 0).w3)
         (([1] : List ℚ).getD 0 0 + FP32_EPS)⟩ :=
  singleton_group_merge_spec (fun _ => defaultExpert) ⟨[⟨[1], [1], [1]⟩], [0]⟩ 0
    (by norm_num) [1]

theorem getD_set_ne {α : Type} (l : List α) (i j : ℕ) (v d : α) (hne : j ≠ i) :
    (l.set i v).getD j d = l.getD j d := by
  simp only [List.getD_eq_getElem?_getD]
  rw [List.getElem?_set_ne (fun he => hne he.symm)]

theorem getD_set_self {α : Type} (l : List α) (i : ℕ) (v d : α) (hi : i < l.length) :
    (l.set i v).getD i d = v := by
  simp only [List.getD_eq_getElem?_getD]
  rw [List.getElem?_set_self hi]
  rfl

/-- Claim C5 is false in its "exactly the elementwise mean" part: merging the
2-member group `[0, 1]` with equal nonzero usage frequencies `1` and member
weights `1` and `3` produces `4 / (2 + FP32_EPS) = 33554432/16777217`, not
the elementwise mean `2`. -/
theorem freq_merge_pair_not_mean :
    (expertAt (mergeGroupFreq ⟨[⟨[1], [1], [1]⟩, ⟨[3], [3], [3]⟩], [0, 1]⟩ [0, 1] [1, 1]) 0).w1
      = [(33554432 : ℚ) / 16777217] ∧
    ((33554432 : ℚ) / 16777217) ≠ (1 + 3) / 2 := by
  constructor
  · norm_num [mergeGroupFreq, expertAt, hread, hwrite, sumVecs, addVec, scaleVec, divVec,
      FP32_EPS]
  · norm_num

/-- Amended claim C5: for a 2-member group with equal usage frequency `u` on
both members, `_merge_mlp_experts_by_usage_frequency_weighting` produces, for
each of the w1, w2 and w3 matrices, the elementwise value
`(u*x + u*y) / (u + u + FP32_EPS)` — the elementwise mean only up to the
factor `2u / (2u + FP32_EPS)` introduced by the stabilising epsilon — and
afterwards both expert index slots reference the same merged module. -/
theorem equal_weight_pair_merge_spec (st : MoEHeapState) (a b : ℕ) (u : ℚ) (usage : List ℚ)
    (hab : a ≠ b) (hua : usage.getD a 0 = u) (hub : usage.getD b 0 = u)
    (hra : st.slots.getD a 0 < st.heap.length) (hb : b < st.slots.length) :
    expertAt (mergeGroupFreq st [a, b] usage) a =
      ⟨divVec (addVec (scaleVec u (expertAt st a).w1) (scaleVec u (expertAt st b).w1))
         (u + u + FP32_EPS),
       divVec (addVec (scaleVec u (expertAt st a).w2) (scaleVec u (expertAt st b).w2))
         (u + u + FP32_EPS),
       divVec (addVec (scaleVec u (expertAt st a).w3) (scaleVec u (expertAt st b).w3))
         (u + u + FP32_EPS)⟩ ∧
    (mergeGroupFreq st [a, b] usage).slots.getD b 0
      = (mergeGroupFreq st [a, b] usage).slots.getD a 0 := by
  have hslots : (mergeGroupFreq st [a, b] usage).slots = st.slots.set b (st.slots.getD a 0) :=
    rfl
  constructor
  · show expertAt ⟨hwrite st.heap (st.slots.getD a 0) _, st.slots.set b (st.slots.getD a 0)⟩ a
        = _
    simp only [expertAt]
    rw [getD_set_ne st.slots b a _ 0 hab]
    rw [hwrite_read_self st.heap (st.slots.getD a 0) _ defaultExpert hra]
    simp only [List.getD_eq_getElem?_getD] at hua hub
    simp [sumVecs, hua, hub, List.sum_cons, List.sum_nil, add_zero]
  · rw [hslots, getD_set_self st.slots b _ 0 hb, getD_set_ne st.slots b a _ 0 hab]

/-- Witness for `equal_weight_pair_merge_spec` at a concrete input. -/
theorem equal_weight_pair_merge_spec_witness :
    expertAt (mergeGroupFreq ⟨[⟨[1], [1], [1]⟩, ⟨[3], [3], [3]⟩], [0, 1]⟩ [0, 1] [1, 1]) 0 =
      ⟨divVec (addVec
          (scaleVec 1 (expertAt ⟨[⟨[1], [1], [1]⟩, ⟨[3], [3], [3]⟩], [0, 1]⟩ 0).w1)
          (scaleVec 1 (expertAt ⟨[⟨[1], [1], [1]⟩, ⟨[3], [3], [3]⟩], [0, 1]⟩ 1).w1))
         (1 + 1 + FP32_EPS),
       divVec (addVec
          (scaleVec 1 (expertAt ⟨[⟨[1], [1], [1]⟩, ⟨[3], [3], [3]⟩], [0, 1]⟩ 0).w2)
          (scaleVec 1 (expertAt ⟨[⟨[1], [1], [1]⟩, ⟨[3], [3], [3]⟩], [0, 1]⟩ 1).w2))
         (1 + 1 + FP32_EPS),
       divVec (addVec
          (scaleVec 1 (expertAt ⟨[⟨[1], [1], [1]⟩, ⟨[3], [3], [3]⟩], [0, 1]⟩ 0).w3)
          (scaleVec 1 (expertAt ⟨[⟨[1], [1], [1]⟩, ⟨[3], [3], [3]⟩], [0, 1]⟩ 1).w3))
         (1 + 1 + FP32_EPS)⟩ ∧
    (mergeGroupFreq ⟨[⟨[1], [1], [1]⟩, ⟨[3], [3], [3]⟩], [0, 1]⟩ [0, 1] [1, 1]).slots.getD 1 0
      = (mergeGroupFreq ⟨[⟨[1], [1], [1]⟩, ⟨[3], [3], [3]⟩], [0, 1]⟩ [0, 1] [1, 1]).slots.getD 0 0 :=
  equal_weight_pair_merge_spec ⟨[⟨[1], [1], [1]⟩, ⟨[3], [3], [3]⟩], [0, 1]⟩ 0 1 1 [1, 1]
    (by decide) (by decide) (by decide) (by decide) (by decide)

/-!
## Dominant-anchored group assignment with capacity eviction
Embedding of `ExpertsGrouperForMixtral.group_experts_globally_from_dominant_experts`
(`grouping_mixtral.py`, lines 1017-1108): per layer, the most-used experts
become cores, the remaining experts go to the most-similar core, and a
capacity limit is enforced by an eviction/reassignment loop that writes the
sentinel `-100` into the working similarity matrix.
-/

/-- Entry `(i, j)` of a matrix stored as a list of rows. -/
def getEntry (M : List (List ℚ)) (i j : ℕ) : ℚ := (M.getD i []).getD j 0

/-- Write entry `(i, j)` of a matrix stored as a list of rows. -/
def setEntry (M : List (List ℚ)) (i j : ℕ) (v : ℚ) : List (List ℚ) :=
  M.set i ((M.getD i []).set j v)

theorem getD_set {α : Type} (l : List α) (i j : ℕ) (v d : α) :
    (l.set i v).getD j d = if i = j ∧ i < l.length then v else l.getD j d := by
  simp only [List.getD_eq_getElem?_getD, List.getElem?_set]
  by_cases h1 : i = j
  · subst h1
    by_cases h2 : i < l.length
    · simp [h2]
    · have hnone : l[i]? = none := List.getElem?_eq_none (by omega)
      simp [h2, hnone]
  · simp [h1]

theorem getEntry_setEntry_self (M : List (List ℚ)) (i j : ℕ) (v : ℚ)
    (hi : i < M.length) (hj : j < (M.getD i []).length) :
    getEntry (setEntry M i j v) i j = v := by
  simp only [getEntry, setEntry]
  rw [getD_set, if_pos ⟨rfl, hi⟩, getD_set, if_pos ⟨rfl, hj⟩]

theorem getEntry_setEntry_ne (M : List (List ℚ)) (i j a b : ℕ) (v : ℚ)
    (hne : a ≠ i ∨ b ≠ j) :
    getEntry (setEntry M i j v) a b = getEntry M a b := by
  simp only [getEntry, setEntry]
  rcases hne with h | h
  · rw [getD_set]
    rw [if_neg (fun hc => h hc.1.symm)]
  · rw [getD_set]
    by_cases hia : i = a ∧ i < M.length
    · rw [if_pos hia, hia.1, getD_set, if_neg (fun hc => h hc.1.symm)]
    · rw [if_neg hia]

/-- The working state of the per-layer assignment: the label vector
(`self._group_state_dict[ffn_name]`), the ordered member lists
(`group_dict`, position 0 is the core), the member counters
(`group_member_count`) and the working similarity matrix (the local deep
copy `similarity_matrix`). -/
structure EvState where
  labels : List ℕ
  gdict : List (List ℕ)
  counts : List ℕ
  sim : List (List ℚ)
deriving DecidableEq

/-- Assignment-stage errors: the fatal "too small" `ValueError` naming the
offending layer, or exhaustion of the fuel bounding the (potentially
nonterminating) eviction loop. -/
inductive GroupErr where
  | tooSmall (layer : ℕ)
  | outOfFuel
deriving DecidableEq

/-- The position evicted from group `g` (core `msc`): the argmin over the
members' similarity to the core (`torch.argmin`), forced from 0 to 1
(`if (unsimilar_pos == 0): unsimilar_pos = 1`). -/
def evictPos (g msc : ℕ) (st : EvState) : ℕ :=
  let pos := argminIdx ((st.gdict.getD g []).map (fun m => getEntry st.sim msc m))
  if pos = 0 then 1 else pos

/-- The expert evicted from group `g`: `group_dict[...][unsimilar_pos]`. -/
def evictedExpert (g msc : ℕ) (st : EvState) : ℕ :=
  (st.gdict.getD g []).getD (evictPos g msc st) 0

/-- One pass of the body of the capacity-limit `while` loop: evict the
least-similar member (position forced from 0 to 1), write the `-100`
sentinel into both symmetric entries of the (evicted, core) pair, and
reassign the evicted expert to the core now most similar to it, returning
the new tracked group, its core, and the updated state. -/
def evictStep (cores : List ℕ) (g msc : ℕ) (st : EvState) : ℕ × ℕ × EvState :=
  let ev := evictedExpert g msc st
  let counts1 := st.counts.set g (st.counts.getD g 0 - 1)
  let gdict1 := st.gdict.set g ((st.gdict.getD g []).erase ev)
  let sim1 := setEntry (setEntry st.sim ev msc (-100)) msc ev (-100)
  let msc1 := cores.getD (argmaxIdx (cores.map (fun c => getEntry sim1 ev c))) 0
  let g1 := st.labels.getD msc1 0
  (g1, msc1,
   ⟨st.labels.set ev g1,
    gdict1.set g1 (gdict1.getD g1 [] ++ [ev]),
    counts1.set g1 (counts1.getD g1 0 + 1),
    sim1⟩)

/-- The capacity-limit `while` loop
(`while group_member_count[most_similar_group_label] > self.group_limit`),
bounded by fuel since the Python loop has no termination guarantee. -/
def evictLoop (limit : ℕ) (cores : List ℕ) :
    ℕ → ℕ → ℕ → EvState → Except GroupErr EvState
  | fuel, g, msc, st =>
    if st.counts.getD g 0 ≤ limit then Except.ok st
    else
      match fuel with
      | 0 => Except.error GroupErr.outOfFuel
      | f + 1 =>
        let r := evictStep cores g msc st
        evictLoop limit cores f r.1 r.2.1 r.2.2

/-- The loop over expert indices (`for i in range(0, self.num_experts)`):
cores are skipped, every other expert joins the group of its most-similar
core; when that group overflows the capacity limit, either the fatal
"too small" error fires (single core with `group_limit < num_experts`) or
the eviction loop runs. -/
def assignLoop (n limit layer : ℕ) (cores : List ℕ) (fuel : ℕ) :
    List ℕ → EvState → Except GroupErr EvState
  | [], st => Except.ok st
  | i :: rest, st =>
    if i ∈ cores then assignLoop n limit layer cores fuel rest st
    else
      let msc := cores.getD (argmaxIdx (cores.map (fun c => getEntry st.sim i c))) 0
      let g := st.labels.getD msc 0
      let st1 : EvState :=
        ⟨st.labels.set i g,
         st.gdict.set g (st.gdict.getD g [] ++ [i]),
         st.counts.set g (st.counts.getD g 0 + 1),
         st.sim⟩
      if limit < st1.counts.getD g 0 then
        if cores.length = 1 ∧ limit < n then Except.error (GroupErr.tooSmall layer)
        else
          match evictLoop limit cores fuel g msc st1 with
          | Except.error e => Except.error e
          | Except.ok st2 => assignLoop n limit layer cores fuel rest st2
      else assignLoop n limit layer cores fuel rest st1

/-- Descending argsort (`torch.argsort(usage, descending=True)`). -/
def argsortDesc (u : List ℚ) : List ℕ :=
  List.insertionSort (fun i j : ℕ => u.getD j 0 ≤ u.getD i 0) (List.range u.length)

/-- Embedding of the per-layer body of
`group_experts_globally_from_dominant_experts`: the top `numGroups` experts
by usage become single-member core groups labelled `0 .. numGroups - 1`,
and the remaining experts are assigned by `assignLoop` on the working
similarity matrix `sim` (the local deep copy). -/
def groupLayerFromDominant (n limit layer numGroups fuel : ℕ) (usage : List ℚ)
    (sim : List (List ℚ)) (labels0 : List ℕ) : Except GroupErr (List ℕ × EvState) :=
  let cores := (argsortDesc usage).take numGroups
  let labels1 := (List.range numGroups).foldl
    (fun ls k => ls.set ((argsortDesc usage).getD k 0) k) labels0
  let st : EvState := ⟨labels1, cores.map (fun c => [c]), List.replicate numGroups 1, sim⟩
  match assignLoop n limit layer cores fuel (List.range n) st with
  | Except.error e => Except.error e
  | Except.ok st2 => Except.ok (cores, st2)

/-- The grouper's stored per-layer similarity state, as a heap reference
(`self._similarity_state_dict[ffn_name]`). -/
structure GrouperSimRef where
  simRef : ℕ
deriving DecidableEq

/-- Heap-level embedding of `group_experts_globally_from_dominant_experts`
for one layer: `get_similarity_matrix` deep-copies the stored matrix into a
fresh object (`halloc`), the assignment mutates only that local copy, and
the final local matrix lives at the fresh address.  The grouper's stored
reference `gr.simRef` is never written. -/
def groupExpertsFromDominantHeap (h : List (List (List ℚ))) (gr : GrouperSimRef)
    (n limit layer numGroups fuel : ℕ) (usage : List ℚ) (labels0 : List ℕ) :
    Except GroupErr (List (List (List ℚ)) × List ℕ × EvState) :=
  Except.map
    (fun q => (hwrite (halloc h (hread h gr.simRef [])).1
        (halloc h (hread h gr.simRef [])).2 q.2.sim, q.1, q.2))
    (groupLayerFromDominant n limit layer numGroups fuel usage (hread h gr.simRef []) labels0)

instance exceptDecEq {ε α : Type} [DecidableEq ε] [DecidableEq α] :
    DecidableEq (Except ε α) := fun x y =>
  match x, y with
  | Except.ok a, Except.ok b => decidable_of_iff (a = b) (by simp)
  | Except.error e, Except.error f => decidable_of_iff (e = f) (by simp)
  | Except.ok _, Except.error _ => isFalse (fun hc => Except.noConfusion hc)
  | Except.error _, Except.ok _ => isFalse (fun hc => Except.noConfusion hc)

/-- A concrete 4-expert similarity matrix (symmetric, unit diagonal up to the
integer scale 100) on which an eviction occurs. -/
def simC7 : List (List ℚ) :=
  [[100, 0, 20, 30], [0, 100, 10, 5], [20, 10, 100, 1], [30, 5, 1, 100]]

/-- The working copy of `simC7` after the run: the eviction of expert 2 from
group 0 wrote the `-100` sentinel into both entries of the pair (2, 0). -/
def simC7final : List (List ℚ) :=
  [[100, 0, -100, 30], [0, 100, 10, 5], [-100, 10, 100, 1], [30, 5, 1, 100]]

/-- Claim C7 is false as stated: on a concrete 4-expert layer
(usages `[4,3,2,1]`, `group_limit = 2`, 2 groups) the assignment performs a
capacity eviction and writes the `-100` sentinel into the *working copy* of
the similarity matrix, but the grouper's *stored* similarity state for the
layer — read through its heap reference after the call — is unchanged and
contains no sentinel value, because `get_similarity_matrix` returns a deep
copy. -/
theorem stored_similarity_no_sentinel_after_eviction :
    groupExpertsFromDominantHeap [simC7] ⟨0⟩ 4 2 7 2 10 [4, 3, 2, 1] [0, 1, 2, 3]
      = Except.ok ([simC7, simC7final], [0, 1],
          ⟨[0, 1, 1, 0], [[0, 3], [1, 2]], [2, 2], simC7final⟩) ∧
    getEntry simC7final 2 0 = -100 ∧
    hread [simC7, simC7final] 0 [] = simC7 ∧
    ∀ i < 4, ∀ j < 4, getEntry simC7 i j ≠ -100 := by
  refine ⟨by decide, by decide, by decide, by decide⟩

/-- Amended claim C7: a capacity eviction writes its `-100` sentinel values
only into the local deep copy of the layer's similarity matrix obtained from
`get_similarity_matrix`; whenever `group_experts_globally_from_dominant_experts`
returns, the grouper's stored similarity state for the layer is unchanged. -/
theorem groupExperts_stored_sim_unchanged (h : List (List (List ℚ))) (gr : GrouperSimRef)
    (n limit layer numGroups fuel : ℕ) (usage : List ℚ) (labels0 : List ℕ)
    (hwf : gr.simRef < h.length) :
    ∀ hp cores st2,
      groupExpertsFromDominantHeap h gr n limit layer numGroups fuel usage labels0
        = Except.ok (hp, cores, st2) →
      hread hp gr.simRef [] = hread h gr.simRef [] := by
  intro hp cores st2 hok
  unfold groupExpertsFromDominantHeap at hok
  cases hm : groupLayerFromDominant n limit layer numGroups fuel usage
      (hread h gr.simRef []) labels0 with
  | error e =>
    rw [hm] at hok
    simp [Except.map] at hok
  | ok q =>
    rw [hm] at hok
    simp only [Except.map, Except.ok.injEq, Prod.mk.injEq] at hok
    obtain ⟨hhp, hcores, hst2⟩ := hok
    rw [← hhp]
    have hne : gr.simRef ≠ (halloc h (hread h gr.simRef [])).2 := by
      simp only [halloc]
      omega
    rw [hwrite_read_ne _ _ _ _ _ hne]
    simp only [halloc, hread]
    exact List.getD_append _ _ _ _ hwf

/-- Witness for `groupExperts_stored_sim_unchanged` at the concrete layer of
`stored_similarity_no_sentinel_after_eviction`. -/
theorem groupExperts_stored_sim_unchanged_witness :
    hread [simC7, simC7final] (GrouperSimRef.mk 0).simRef []
      = hread [simC7] (GrouperSimRef.mk 0).simRef [] :=
  groupExperts_stored_sim_unchanged [simC7] ⟨0⟩ 4 2 7 2 10 [4, 3, 2, 1] [0, 1, 2, 3]
    (by decide) [simC7, simC7final] [0, 1]
    ⟨[0, 1, 1, 0], [[0, 3], [1, 2]], [2, 2], simC7final⟩ (by decide)

theorem getDgen_mem {α : Type} (l : List α) (k : ℕ) (d : α) (hk : k < l.length) :
    l.getD k d ∈ l := by
  rw [List.getD_eq_getElem l d hk]
  exact List.getElem_mem hk

theorem getD_map_lt {α β : Type} (f : α → β) (l : List α) (k : ℕ) (d : β) (d2 : α)
    (hk : k < l.length) : (l.map f).getD k d = f (l.getD k d2) := by
  rw [List.getD_eq_getElem (l.map f) d (by simpa using hk), List.getD_eq_getElem l d2 hk,
    List.getElem_map]

theorem setEntry_length (M : List (List ℚ)) (i j : ℕ) (v : ℚ) :
    (setEntry M i j v).length = M.length := by
  simp [setEntry]

/-- The sentinel writes of one eviction: after
`similarity_matrix[unsimilar_idx, most_similar_core] = -100` and
`similarity_matrix[most_similar_core, unsimilar_idx] = -100`, both symmetric
entries of the pair read `-100`. -/
theorem evictSim_sentinel (sim : List (List ℚ)) (ev msc : ℕ)
    (hev : ev < sim.length) (hmsc : msc < sim.length)
    (hevr : msc < (sim.getD ev []).length) (hmscr : ev < (sim.getD msc []).length) :
    getEntry (setEntry (setEntry sim ev msc (-100)) msc ev (-100)) ev msc = -100 ∧
    getEntry (setEntry (setEntry sim ev msc (-100)) msc ev (-100)) msc ev = -100 := by
  by_cases heq : ev = msc
  · subst heq
    have hlen : ev < (setEntry sim ev ev (-100)).length := by rw [setEntry_length]; exact hev
    have hrow : ((setEntry sim ev ev (-100)).getD ev []) = (sim.getD ev []).set ev (-100) := by
      simp only [setEntry]
      rw [getD_set, if_pos ⟨rfl, hev⟩]
    have hrl : ev < ((setEntry sim ev ev (-100)).getD ev []).length := by
      rw [hrow, List.length_set]; exact hevr
    exact ⟨getEntry_setEntry_self _ ev ev _ hlen hrl, getEntry_setEntry_self _ ev ev _ hlen hrl⟩
  · constructor
    · rw [getEntry_setEntry_ne _ msc ev ev msc _ (Or.inl heq)]
      exact getEntry_setEntry_self sim ev msc _ hev hevr
    · have hlen : msc < (setEntry sim ev msc (-100)).length := by
        rw [setEntry_length]; exact hmsc
      have hrow : ((setEntry sim ev msc (-100)).getD msc []) = sim.getD msc [] := by
        simp only [setEntry]
        rw [getD_set, if_neg (fun hc => heq hc.1)]
      have hrl : ev < ((setEntry sim ev msc (-100)).getD msc []).length := by
        rw [hrow]; exact hmscr
      exact getEntry_setEntry_self _ msc ev _ hlen hrl

/-- Counters after one eviction step: the tracked group loses one member and
the receiving group gains one. -/
theorem evictLoop_counts_ok (limit : ℕ) (cores : List ℕ) :
    ∀ (fuel g msc : ℕ) (st st2 : EvState),
      st.counts.getD g 0 ≤ limit + 1 →
      (∀ k, k ≠ g → st.counts.getD k 0 ≤ limit) →
      evictLoop limit cores fuel g msc st = Except.ok st2 →
      ∀ k, st2.counts.getD k 0 ≤ limit := by
  intro fuel
  induction fuel with
  | zero =>
    intro g msc st st2 hg hothers hok k
    rw [evictLoop] at hok
    by_cases hguard : st.counts.getD g 0 ≤ limit
    · rw [if_pos hguard] at hok
      cases hok
      by_cases hkg : k = g
      · rw [hkg]; exact hguard
      · exact hothers k hkg
    · rw [if_neg hguard] at hok
      cases hok
  | succ f ih =>
    intro g msc st st2 hg hothers hok k
    rw [evictLoop] at hok
    by_cases hguard : st.counts.getD g 0 ≤ limit
    · rw [if_pos hguard] at hok
      cases hok
      by_cases hkg : k = g
      · rw [hkg]; exact hguard
      · exact hothers k hkg
    · rw [if_neg hguard] at hok
      have hgin : g < st.counts.length := by
        by_contra hc
        rw [List.getD_eq_default _ _ (by omega)] at hguard
        omega
      change evictLoop limit cores f (evictStep cores g msc st).1
        (evictStep cores g msc st).2.1 (evictStep cores g msc st).2.2 = Except.ok st2 at hok
      have hcounts : (evictStep cores g msc st).2.2.counts
          = (st.counts.set g (st.counts.getD g 0 - 1)).set (evictStep cores g msc st).1
            ((st.counts.set g (st.counts.getD g 0 - 1)).getD
              (evictStep cores g msc st).1 0 + 1) := rfl
      generalize hG : (evictStep cores g msc st).1 = g1 at hok hcounts
      generalize hM : (evictStep cores g msc st).2.1 = msc1 at hok
      generalize hS : (evictStep cores g msc st).2.2 = stp at hok hcounts
      refine ih g1 msc1 stp st2 ?_ ?_ hok k
      · -- the receiving group's new count stays at most limit + 1
        rw [hcounts, getD_set]
        by_cases h1 : g1 = g1 ∧ g1 < (st.counts.set g (st.counts.getD g 0 - 1)).length
        · rw [if_pos h1, getD_set]
          by_cases h3 : g = g1
          · rw [if_pos ⟨h3, hgin⟩]
            omega
          · rw [if_neg (fun hc => h3 hc.1)]
            have := hothers g1 (fun he => h3 he.symm)
            omega
        · rw [if_neg h1, getD_set]
          by_cases h3 : g = g1 ∧ g < st.counts.length
          · rw [if_pos h3]
            omega
          · rw [if_neg h3]
            by_cases h4 : g1 = g
            · rw [h4]
              omega
            · exact le_trans (hothers g1 h4) (by omega)
      · intro k2 hk2
        rw [hcounts, getD_set, if_neg (fun hc => hk2 hc.1.symm), getD_set]
        by_cases h3 : g = k2 ∧ g < st.counts.length
        · rw [if_pos h3]
          omega
        · rw [if_neg h3]
          by_cases h4 : k2 = g
          · exact absurd ⟨h4.symm, hgin⟩ h3
          · exact hothers k2 h4

/-- Claim C2: during dominant-anchored assignment, one pass of the
capacity-eviction body (i) computes the eviction position as the argmin of
the over-limit group's member similarities to its core, forced from 0 to 1
when the argmin resolves to 0, the argmin being a true minimiser of that
row; (ii) writes the sentinel `-100` into both symmetric entries of the
(evicted member, core) pair of the working similarity matrix; (iii)
reassigns the evicted expert to the core most similar to it in the updated
matrix (so the `-100` pair cannot be re-selected), giving it that core's
group label; and (iv) whenever the bounded eviction loop returns normally,
every group ends with at most `group_limit` members. -/
theorem capacity_eviction_spec :
    (∀ (cores : List ℕ) (g msc : ℕ) (st : EvState),
      cores ≠ [] →
      evictedExpert g msc st < st.sim.length →
      msc < st.sim.length →
      msc < (st.sim.getD (evictedExpert g msc st) []).length →
      evictedExpert g msc st < (st.sim.getD msc []).length →
      evictedExpert g msc st < st.labels.length →
      (evictPos g msc st =
        (if argminIdx ((st.gdict.getD g []).map (fun m => getEntry st.sim msc m)) = 0 then 1
         else argminIdx ((st.gdict.getD g []).map (fun m => getEntry st.sim msc m)))) ∧
      (∀ k < (st.gdict.getD g []).length,
        ((st.gdict.getD g []).map (fun m => getEntry st.sim msc m)).getD
          (argminIdx ((st.gdict.getD g []).map (fun m => getEntry st.sim msc m))) 0
          ≤ ((st.gdict.getD g []).map (fun m => getEntry st.sim msc m)).getD k 0) ∧
      getEntry (evictStep cores g msc st).2.2.sim (evictedExpert g msc st) msc = -100 ∧
      getEntry (evictStep cores g msc st).2.2.sim msc (evictedExpert g msc st) = -100 ∧
      (evictStep cores g msc st).2.1 ∈ cores ∧
      (∀ c ∈ cores,
        getEntry (evictStep cores g msc st).2.2.sim (evictedExpert g msc st) c
          ≤ getEntry (evictStep cores g msc st).2.2.sim (evictedExpert g msc st)
            (evictStep cores g msc st).2.1) ∧
      (evictStep cores g msc st).2.2.labels.getD (evictedExpert g msc st) 0
        = st.labels.getD (evictStep cores g msc st).2.1 0) ∧
    (∀ (limit : ℕ) (cores : List ℕ) (fuel g msc : ℕ) (st st2 : EvState),
      st.counts.getD g 0 ≤ limit + 1 →
      (∀ k, k ≠ g → st.counts.getD k 0 ≤ limit) →
      evictLoop limit cores fuel g msc st = Except.ok st2 →
      ∀ k, st2.counts.getD k 0 ≤ limit) := by
  constructor
  · intro cores g msc st hcores hev hmsc hevr hmscr hevlab
    have hsim : (evictStep cores g msc st).2.2.sim
        = setEntry (setEntry st.sim (evictedExpert g msc st) msc (-100)) msc
            (evictedExpert g msc st) (-100) := rfl
    have hsent := evictSim_sentinel st.sim (evictedExpert g msc st) msc hev hmsc hevr hmscr
    have hmsc1 : (evictStep cores g msc st).2.1
        = cores.getD (argmaxIdx (cores.map (fun c =>
            getEntry (evictStep cores g msc st).2.2.sim (evictedExpert g msc st) c))) 0 := rfl
    have hvalsne : cores.map (fun c =>
        getEntry (evictStep cores g msc st).2.2.sim (evictedExpert g msc st) c) ≠ [] := by
      intro hc
      exact hcores (List.map_eq_nil_iff.mp hc)
    have hamax := argmaxIdx_lt_length _ hvalsne
    rw [List.length_map] at hamax
    refine ⟨rfl, ?_, ?_, ?_, ?_, ?_, ?_⟩
    · intro k hk
      exact getD_argminIdx_le _ k (by simpa using hk)
    · rw [hsim]; exact hsent.1
    · rw [hsim]; exact hsent.2
    · rw [hmsc1]
      exact getDgen_mem cores _ 0 hamax
    · intro c hc
      obtain ⟨j, hj, rfl⟩ := List.getElem_of_mem hc
      have h1 := getD_argmaxIdx_ge (cores.map (fun c =>
        getEntry (evictStep cores g msc st).2.2.sim (evictedExpert g msc st) c)) j
        (by simpa using hj)
      rw [getD_map_lt _ cores j 0 0 hj] at h1
      rw [getD_map_lt _ cores _ 0 0 hamax] at h1
      rw [List.getD_eq_getElem cores 0 hj] at h1
      rw [hmsc1]
      exact h1
    · have hlab : (evictStep cores g msc st).2.2.labels
          = st.labels.set (evictedExpert g msc st)
              (st.labels.getD (evictStep cores g msc st).2.1 0) := rfl
      rw [hlab, getD_set, if_pos ⟨rfl, hevlab⟩]
  · exact evictLoop_counts_ok

/-- The state of the concrete layer of `simC7` at the moment group 0 (core
expert 0, members `[0, 2, 3]`) first exceeds `group_limit = 2`. -/
def evC7state : EvState := ⟨[0, 1, 0, 0], [[0, 2, 3], [1]], [3, 1], simC7⟩

/-- Witness for `capacity_eviction_spec`: the eviction step and the eviction
loop at the concrete over-limit state `evC7state`. -/
theorem capacity_eviction_spec_witness :
    ((evictPos 0 0 evC7state =
        (if argminIdx ((evC7state.gdict.getD 0 []).map
            (fun m => getEntry evC7state.sim 0 m)) = 0 then 1
         else argminIdx ((evC7state.gdict.getD 0 []).map
            (fun m => getEntry evC7state.sim 0 m)))) ∧
      (∀ k < (evC7state.gdict.getD 0 []).length,
        ((evC7state.gdict.getD 0 []).map (fun m => getEntry evC7state.sim 0 m)).getD
          (argminIdx ((evC7state.gdict.getD 0 []).map
            (fun m => getEntry evC7state.sim 0 m))) 0
          ≤ ((evC7state.gdict.getD 0 []).map (fun m => getEntry evC7state.sim 0 m)).getD k 0) ∧
      getEntry (evictStep [0, 1] 0 0 evC7state).2.2.sim (evictedExpert 0 0 evC7state) 0
        = -100 ∧
      getEntry (evictStep [0, 1] 0 0 evC7state).2.2.sim 0 (evictedExpert 0 0 evC7state)
        = -100 ∧
      (evictStep [0, 1] 0 0 evC7state).2.1 ∈ [0, 1] ∧
      (∀ c ∈ [0, 1],
        getEntry (evictStep [0, 1] 0 0 evC7state).2.2.sim (evictedExpert 0 0 evC7state) c
          ≤ getEntry (evictStep [0, 1] 0 0 evC7state).2.2.sim (evictedExpert 0 0 evC7state)
            (evictStep [0, 1] 0 0 evC7state).2.1) ∧
      (evictStep [0, 1] 0 0 evC7state).2.2.labels.getD (evictedExpert 0 0 evC7state) 0
        = evC7state.labels.getD (evictStep [0, 1] 0 0 evC7state).2.1 0) ∧
    (∀ k, (EvState.mk [0, 1, 1, 0] [[0, 3], [1, 2]] [2, 2] simC7final).counts.getD k 0 ≤ 2) := by
  constructor
  · exact capacity_eviction_spec.1 [0, 1] 0 0 evC7state (by decide) (by decide) (by decide)
      (by decide) (by decide) (by decide)
  · refine capacity_eviction_spec.2 2 [0, 1] 10 0 0 evC7state _ (by decide) ?_ (by decide)
    intro k hk
    match k with
    | 0 => exact absurd rfl hk
    | 1 => decide
    | k + 2 =>
      rw [List.getD_eq_default _ _ (by simp [evC7state])]
      omega

/-- With a single core `c`, every processed non-core expert joins group 0;
as soon as the counter passes the limit the fatal error fires (single core
and `group_limit < num_experts`). -/
theorem assignLoop_single_core_error (n limit layer fuel c : ℕ) :
    ∀ (is : List ℕ) (st : EvState) (k : ℕ),
      st.labels.getD c 0 = 0 →
      st.counts.length = 1 →
      st.counts.getD 0 0 = k →
      k ≤ limit →
      limit < n →
      limit < k + (is.filter (fun j => decide (j ≠ c))).length →
      assignLoop n limit layer [c] fuel is st = Except.error (GroupErr.tooSmall layer) := by
  intro is
  induction is with
  | nil =>
    intro st k hlab hclen hcount hk hlim hsum
    simp at hsum
    omega
  | cons i rest ih =>
    intro st k hlab hclen hcount hk hlim hsum
    by_cases hic : i ∈ ([c] : List ℕ)
    · have hieq : i = c := by simpa using hic
      simp only [assignLoop]
      rw [if_pos hic]
      refine ih st k hlab hclen hcount hk hlim ?_
      rw [List.filter_cons_of_neg (by simp [hieq])] at hsum
      exact hsum
    · have hinec : i ≠ c := by simpa using hic
      simp only [assignLoop]
      rw [if_neg hic]
      have hmsc : ([c] : List ℕ).getD
          (argmaxIdx (([c] : List ℕ).map (fun cc => getEntry st.sim i cc))) 0 = c := by
        simp [argmaxIdx]
      rw [hmsc, hlab, hcount]
      have hset : (st.counts.set 0 (k + 1)).getD 0 0 = k + 1 :=
        getD_set_self st.counts 0 (k + 1) 0 (by omega)
      rw [hset]
      by_cases hkl : limit < k + 1
      · rw [if_pos hkl, if_pos ⟨rfl, hlim⟩]
      · rw [if_neg hkl]
        refine ih _ (k + 1) ?_ ?_ ?_ (by omega) hlim ?_
        · show (st.labels.set i 0).getD c 0 = 0
          rw [getD_set, if_neg (fun hc2 => hinec hc2.1)]
          exact hlab
        · simpa using hclen
        · exact hset
        · rw [List.filter_cons_of_pos (by simp [hinec])] at hsum
          simp only [List.length_cons] at hsum
          omega

theorem evictLoop_never_tooSmall (limit : ℕ) (cores : List ℕ) :
    ∀ (fuel g msc : ℕ) (st : EvState) (L : ℕ),
      evictLoop limit cores fuel g msc st ≠ Except.error (GroupErr.tooSmall L) := by
  intro fuel
  induction fuel with
  | zero =>
    intro g msc st L h
    rw [evictLoop] at h
    by_cases hg : st.counts.getD g 0 ≤ limit
    · rw [if_pos hg] at h
      exact Except.noConfusion h
    · rw [if_neg hg] at h
      have := Except.error.inj h
      exact GroupErr.noConfusion this
  | succ f ih =>
    intro g msc st L h
    rw [evictLoop] at h
    by_cases hg : st.counts.getD g 0 ≤ limit
    · rw [if_pos hg] at h
      exact Except.noConfusion h
    · rw [if_neg hg] at h
      exact ih _ _ _ L h

theorem assignLoop_multicore_no_tooSmall (n limit layer : ℕ) (cores : List ℕ) (fuel : ℕ)
    (hcores : 2 ≤ cores.length) :
    ∀ (is : List ℕ) (st : EvState) (L : ℕ),
      assignLoop n limit layer cores fuel is st ≠ Except.error (GroupErr.tooSmall L) := by
  intro is
  induction is with
  | nil =>
    intro st L h
    rw [assignLoop] at h
    exact Except.noConfusion h
  | cons i rest ih =>
    intro st L h
    simp only [assignLoop] at h
    by_cases hic : i ∈ cores
    · rw [if_pos hic] at h
      exact ih _ L h
    · rw [if_neg hic] at h
      split at h
      · split at h
        · rename_i hcond
          omega
        · split at h
          · rename_i heq
            have := Except.error.inj h
            rw [this] at heq
            exact evictLoop_never_tooSmall limit cores fuel _ _ _ L heq
          · exact ih _ L h
      · exact ih _ L h

theorem length_filter_ne_of_nodup (l : List ℕ) (c : ℕ) (hnd : l.Nodup) (hc : c ∈ l) :
    (l.filter (fun j => decide (j ≠ c))).length = l.length - 1 := by
  induction l with
  | nil => cases hc
  | cons a t ih =>
    obtain ⟨hna, hnt⟩ := List.nodup_cons.mp hnd
    rcases List.mem_cons.mp hc with rfl | hct
    · rw [List.filter_cons_of_neg (by simp)]
      rw [List.filter_eq_self.mpr ?_]
      · simp
      · intro x hx
        simp only [decide_eq_true_eq]
        exact fun he => hna (he ▸ hx)
    · rw [List.filter_cons_of_pos (by
        simp only [decide_eq_true_eq]
        exact fun he => hna (he ▸ hct))]
      have hpos : 1 ≤ t.length := List.length_pos.mpr (List.ne_nil_of_mem hct)
      simp only [List.length_cons]
      rw [ih hnt hct]
      omega

/-- Claim C3: with exactly one core expert and `group_limit < num_experts`
(so a group necessarily exceeds the capacity limit), dominant-anchored
assignment raises the fatal "too small" `ValueError` naming the offending
layer; with more than one core, the eviction-and-reassignment process never
raises this error. -/
theorem single_core_capacity_error_spec :
    (∀ (n limit layer fuel : ℕ) (usage : List ℚ) (sim : List (List ℚ)) (labels0 : List ℕ),
      usage.length = n →
      labels0.length = n →
      1 ≤ limit →
      limit < n →
      groupLayerFromDominant n limit layer 1 fuel usage sim labels0
        = Except.error (GroupErr.tooSmall layer)) ∧
    (∀ (n limit layer : ℕ) (cores : List ℕ) (fuel : ℕ) (is : List ℕ) (st : EvState) (L : ℕ),
      2 ≤ cores.length →
      assignLoop n limit layer cores fuel is st ≠ Except.error (GroupErr.tooSmall L)) := by
  constructor
  · intro n limit layer fuel usage sim labels0 hun hlen0 hlim1 hlimn
    have hsortlen : (argsortDesc usage).length = n := by
      simp [argsortDesc, hun]
    have hsortne : argsortDesc usage ≠ [] := by
      intro hc
      rw [hc] at hsortlen
      simp at hsortlen
      omega
    have hcmem : (argsortDesc usage).getD 0 0 ∈ argsortDesc usage :=
      getDgen_mem _ 0 0 (by omega)
    have hcn : (argsortDesc usage).getD 0 0 < n := by
      have hperm : (argsortDesc usage).Perm (List.range usage.length) :=
        List.perm_insertionSort _ _
      have := hperm.mem_iff.mp hcmem
      rw [hun] at this
      exact List.mem_range.mp this
    have htake : (argsortDesc usage).take 1 = [(argsortDesc usage).getD 0 0] := by
      cases hs : argsortDesc usage with
      | nil => exact absurd hs hsortne
      | cons a t => simp
    have hfold : (List.range 1).foldl
        (fun ls k => ls.set ((argsortDesc usage).getD k 0) k) labels0
        = labels0.set ((argsortDesc usage).getD 0 0) 0 := by
      simp [List.range_succ]
    have hmain := assignLoop_single_core_error n limit layer fuel
      ((argsortDesc usage).getD 0 0) (List.range n)
      ⟨labels0.set ((argsortDesc usage).getD 0 0) 0,
       [[(argsortDesc usage).getD 0 0]], [1], sim⟩ 1
      (getD_set_self labels0 _ 0 0 (by omega))
      (by simp) (by simp) hlim1 hlimn
      (by
        rw [length_filter_ne_of_nodup (List.range n) _ (List.nodup_range n)
          (List.mem_range.mpr hcn)]
        simp only [List.length_range]
        omega)
    unfold groupLayerFromDominant
    rw [htake, hfold]
    simp only [List.map_cons, List.map_nil, List.replicate]
    rw [hmain]
  · intro n limit layer cores fuel is st L hcores
    exact assignLoop_multicore_no_tooSmall n limit layer cores fuel hcores is st L

/-- Witness for `single_core_capacity_error_spec`: a 3-expert layer with one
core and `group_limit = 1` errors; with the two cores of the `simC7` layer
the assignment never produces the "too small" error. -/
theorem single_core_capacity_error_spec_witness :
    groupLayerFromDominant 3 1 5 1 10 [3, 2, 1]
        [[100, 1, 2], [1, 100, 3], [2, 3, 100]] [0, 1, 2]
      = Except.error (GroupErr.tooSmall 5) ∧
    assignLoop 4 2 7 [0, 1] 10 (List.range 4) evC7state
      ≠ Except.error (GroupErr.tooSmall 7) :=
  ⟨single_core_capacity_error_spec.1 3 1 5 10 [3, 2, 1]
      [[100, 1, 2], [1, 100, 3], [2, 3, 100]] [0, 1, 2] (by decide) (by decide) (by decide)
      (by decide),
   single_core_capacity_error_spec.2 4 2 7 [0, 1] 10 (List.range 4) evC7state 7 (by decide)⟩

/-!
## Usage estimation
Embedding of `ExpertsGrouperForMixtral.compute_all_usages`
(`grouping_mixtral.py`, lines 1176-1212): in `frequency` mode, top-2 router
selections are counted per expert and normalised per layer at the end
(`{k: v / torch.sum(v)}`); in `routing-score` mode, per-token softmax mass
is accumulated with no final renormalisation.  The transcendental softmax is
a parameter of the embedding.
-/

/-- Mode selector for `compute_all_usages` (`frequency` / `routing-score`). -/
inductive UsageMode where
  | frequency
  | routingScore
deriving DecidableEq

/-- The index of the second-largest entry: the argmax after masking the
first argmax with a value strictly below every entry. -/
def argmax2nd (v : List ℚ) : ℕ :=
  argmaxIdx (v.set (argmaxIdx v) (v.foldr min 0 - 1))

/-- The two expert indices a token's router logits select
(`torch.topk(all_router_logits, 2, dim=-1)[1]`). -/
def top2 (v : List ℚ) : ℕ × ℕ := (argmaxIdx v, argmax2nd v)

/-- Add one selection count for expert `e`. -/
def bump (cs : List ℚ) (e : ℕ) : List ℚ := cs.set e (cs.getD e 0 + 1)

/-- Accumulate one batch's top-2 selection counts for one layer
(`unique, counts = torch.unique(selected_experts[layer_idx], ...)`;
`self._usage_frequency_state_dict[ffn_name][unique] += counts`). -/
def accumFreqLayer (cs : List ℚ) (tokens : List (List ℚ)) : List ℚ :=
  tokens.foldl (fun acc t => bump (bump acc (top2 t).1) (top2 t).2) cs

/-- Accumulate one batch's mean routing score for one layer
(`router_score.float().sum(0) / router_score.shape[0]`, added in place). -/
def accumScoreLayer (smax : List ℚ → List ℚ) (cs : List ℚ) (tokens : List (List ℚ)) :
    List ℚ :=
  addVec cs (divVec (sumVecs (tokens.map smax)) (tokens.length : ℚ))

/-- Embedding of `compute_all_usages`.  A batch is, per layer, the list of
that batch's token logit vectors; the usage state starts at the zero vector
per layer (`reset_all`) and is folded over the calibration stream. -/
def computeAllUsages (smax : List ℚ → List ℚ) (mode : UsageMode) (L nE : ℕ)
    (stream : List (List (List (List ℚ)))) : List (List ℚ) :=
  match mode with
  | UsageMode.frequency =>
    (stream.foldl (fun us batch => (List.range L).map (fun m =>
        accumFreqLayer (us.getD m []) (batch.getD m [])))
      (List.replicate L (List.replicate nE 0))).map (fun v => divVec v v.sum)
  | UsageMode.routingScore =>
    stream.foldl (fun us batch => (List.range L).map (fun m =>
        accumScoreLayer smax (us.getD m []) (batch.getD m [])))
      (List.replicate L (List.replicate nE 0))

/-- Number of layer-`l` tokens in the whole stream. -/
def tokensAtLayer (l : ℕ) (stream : List (List (List (List ℚ)))) : ℕ :=
  (stream.map (fun b => (b.getD l ([] : List (List ℚ))).length)).sum

theorem sum_set_getD_add (l : List ℚ) (e : ℕ) (d : ℚ) (he : e < l.length) :
    (l.set e (l.getD e 0 + d)).sum = l.sum + d := by
  induction l generalizing e with
  | nil => simp at he
  | cons x xs ih =>
    rcases e with _ | e
    · simp [List.sum_cons]
      ring
    · have he' : e < xs.length := by simpa using he
      simp only [List.getD_cons_succ, List.set_cons_succ, List.sum_cons, ih e he']
      ring

theorem bump_length (cs : List ℚ) (e : ℕ) : (bump cs e).length = cs.length := by
  simp [bump]

theorem bump_sum (cs : List ℚ) (e : ℕ) (he : e < cs.length) :
    (bump cs e).sum = cs.sum + 1 :=
  sum_set_getD_add cs e 1 he

theorem bump_nonneg (cs : List ℚ) (e : ℕ) (h : ∀ k < cs.length, 0 ≤ cs.getD k 0) :
    ∀ k < (bump cs e).length, 0 ≤ (bump cs e).getD k 0 := by
  intro k hk
  rw [bump_length] at hk
  simp only [bump, getD_set]
  by_cases hc : e = k ∧ e < cs.length
  · rw [if_pos hc]
    have := h e hc.2
    linarith
  · rw [if_neg hc]
    exact h k hk

theorem accumFreqLayer_spec (nE : ℕ) (hnE : 2 ≤ nE) :
    ∀ (tokens : List (List ℚ)) (cs : List ℚ),
      cs.length = nE →
      (∀ t ∈ tokens, t.length = nE) →
      (∀ k < nE, 0 ≤ cs.getD k 0) →
      (accumFreqLayer cs tokens).length = nE ∧
      (accumFreqLayer cs tokens).sum = cs.sum + 2 * (tokens.length : ℚ) ∧
      (∀ k < nE, 0 ≤ (accumFreqLayer cs tokens).getD k 0) := by
  intro tokens
  induction tokens with
  | nil =>
    intro cs hlen htok hnn
    refine ⟨hlen, by simp [accumFreqLayer], hnn⟩
  | cons t ts ih =>
    intro cs hlen htok hnn
    have ht : t.length = nE := htok t (by simp)
    have htne : t ≠ [] := by
      intro hc
      rw [hc] at ht
      simp only [List.length_nil] at ht
      omega
    have hi1 : (top2 t).1 < cs.length := by
      rw [hlen, ← ht]
      exact argmaxIdx_lt_length t htne
    have hi2 : (top2 t).2 < (bump cs (top2 t).1).length := by
      rw [bump_length, hlen, ← ht]
      have hsetne : t.set (argmaxIdx t) (t.foldr min 0 - 1) ≠ [] := by
        intro hc
        have hlen0 : t.length = 0 := by
          have := congrArg List.length hc
          simpa using this
        rw [ht] at hlen0
        omega
      have h2 := argmaxIdx_lt_length _ hsetne
      rw [List.length_set] at h2
      exact h2
    have hstep : accumFreqLayer cs (t :: ts)
        = accumFreqLayer (bump (bump cs (top2 t).1) (top2 t).2) ts := rfl
    rw [hstep]
    have hlen2 : (bump (bump cs (top2 t).1) (top2 t).2).length = nE := by
      rw [bump_length, bump_length, hlen]
    have hsum2 : (bump (bump cs (top2 t).1) (top2 t).2).sum = cs.sum + 2 := by
      rw [bump_sum _ _ hi2, bump_sum _ _ hi1]
      ring
    have hnn2 : ∀ k < nE, 0 ≤ (bump (bump cs (top2 t).1) (top2 t).2).getD k 0 := by
      have h1 := bump_nonneg cs (top2 t).1 (by rw [hlen]; exact hnn)
      have h2 := bump_nonneg (bump cs (top2 t).1) (top2 t).2 (by
        intro k hk
        rw [bump_length, hlen] at hk
        exact h1 k (by rw [bump_length, hlen]; exact hk))
      intro k hk
      exact h2 k (by rw [bump_length, bump_length, hlen]; exact hk)
    obtain ⟨hl, hs, hn⟩ := ih _ hlen2 (fun u hu => htok u (by simp [hu])) hnn2
    refine ⟨hl, ?_, hn⟩
    rw [hs, hsum2]
    simp only [List.length_cons]
    push_cast
    ring

theorem getD_range (L m : ℕ) (hm : m < L) : (List.range L).getD m 0 = m := by
  rw [List.getD_eq_getElem _ _ (by simpa using hm)]
  exact List.getElem_range m _

theorem getD_replicate_lt {α : Type} (n k : ℕ) (a d : α) (hk : k < n) :
    (List.replicate n a).getD k d = a := by
  simp only [List.getD_eq_getElem?_getD, List.getElem?_replicate]
  simp [hk]

theorem freq_fold_inv (L nE l : ℕ) (hl : l < L) (hnE : 2 ≤ nE) :
    ∀ (stream : List (List (List (List ℚ)))) (us0 : List (List ℚ)),
      (us0.getD l []).length = nE →
      (∀ k < nE, 0 ≤ (us0.getD l []).getD k 0) →
      (∀ batch ∈ stream, ∀ t ∈ batch.getD l ([] : List (List ℚ)), t.length = nE) →
      ((stream.foldl (fun us batch => (List.range L).map (fun m =>
          accumFreqLayer (us.getD m []) (batch.getD m []))) us0).getD l []).length = nE ∧
      ((stream.foldl (fun us batch => (List.range L).map (fun m =>
          accumFreqLayer (us.getD m []) (batch.getD m []))) us0).getD l []).sum
        = (us0.getD l []).sum + 2 * (tokensAtLayer l stream : ℚ) ∧
      (∀ k < nE, 0 ≤ ((stream.foldl (fun us batch => (List.range L).map (fun m =>
          accumFreqLayer (us.getD m []) (batch.getD m []))) us0).getD l []).getD k 0) := by
  intro stream
  induction stream with
  | nil =>
    intro us0 hlen hnn htok
    refine ⟨hlen, by simp [tokensAtLayer], hnn⟩
  | cons batch rest ih =>
    intro us0 hlen hnn htok
    have hmap : (((List.range L).map (fun m =>
        accumFreqLayer (us0.getD m []) (batch.getD m []))).getD l [])
        = accumFreqLayer (us0.getD l []) (batch.getD l []) := by
      rw [getD_map_lt _ (List.range L) l [] 0 (by simpa using hl), getD_range L l hl]
    obtain ⟨ha1, ha2, ha3⟩ := accumFreqLayer_spec nE hnE (batch.getD l []) (us0.getD l [])
      hlen (htok batch (by simp)) hnn
    have hstep : ∀ P : List (List ℚ) → Prop,
        P ((batch :: rest).foldl (fun us b => (List.range L).map (fun m =>
          accumFreqLayer (us.getD m []) (b.getD m []))) us0) ↔
        P (rest.foldl (fun us b => (List.range L).map (fun m =>
          accumFreqLayer (us.getD m []) (b.getD m [])))
          ((List.range L).map (fun m => accumFreqLayer (us0.getD m []) (batch.getD m [])))) :=
      fun P => Iff.rfl
    obtain ⟨hl1, hl2, hl3⟩ := ih ((List.range L).map (fun m =>
        accumFreqLayer (us0.getD m []) (batch.getD m [])))
      (by rw [hmap]; exact ha1)
      (by rw [hmap]; exact ha3)
      (fun b hb => htok b (by simp [hb]))
    refine ⟨hl1, ?_, hl3⟩
    rw [List.foldl_cons, hl2, hmap, ha2]
    simp only [tokensAtLayer, List.map_cons, List.sum_cons]
    push_cast
    ring

theorem sum_divVec (v : List ℚ) (s : ℚ) : (divVec v s).sum = v.sum / s := by
  induction v with
  | nil => simp [divVec]
  | cons x xs ih =>
    simp only [divVec, List.map_cons, List.sum_cons] at *
    rw [ih]
    rw [add_div]

theorem fold_usage_length (L : ℕ) (f : List ℚ → List (List ℚ) → List ℚ) :
    ∀ (stream : List (List (List (List ℚ)))) (us0 : List (List ℚ)), us0.length = L →
      (stream.foldl (fun us batch => (List.range L).map (fun m =>
        f (us.getD m []) (batch.getD m []))) us0).length = L := by
  intro stream
  induction stream with
  | nil =>
    intro us0 h
    exact h
  | cons b rest ih =>
    intro us0 h
    exact ih _ (by simp)

/-- Claim C8: after `compute_all_usages` in `frequency` mode over a stream
with at least one token for an eligible layer, that layer's usage vector is
non-negative and sums to exactly 1 (accumulated top-2 selection counts are
normalised by their total at the end); in `routing-score` mode the result is
the raw accumulated mean-softmax mass — no final renormalisation is
applied. -/
theorem compute_all_usages_spec :
    (∀ (smax : List ℚ → List ℚ) (L nE l : ℕ) (stream : List (List (List (List ℚ)))),
      l < L → 2 ≤ nE →
      (∀ batch ∈ stream, ∀ t ∈ batch.getD l ([] : List (List ℚ)), t.length = nE) →
      1 ≤ tokensAtLayer l stream →
      ((computeAllUsages smax UsageMode.frequency L nE stream).getD l []).sum = 1 ∧
      (∀ k < nE,
        0 ≤ ((computeAllUsages smax UsageMode.frequency L nE stream).getD l []).getD k 0)) ∧
    (∀ (smax : List ℚ → List ℚ) (L nE : ℕ) (stream : List (List (List (List ℚ)))),
      computeAllUsages smax UsageMode.routingScore L nE stream =
        stream.foldl (fun us batch => (List.range L).map (fun m =>
          accumScoreLayer smax (us.getD m []) (batch.getD m [])))
          (List.replicate L (List.replicate nE 0))) := by
  constructor
  · intro smax L nE l stream hl hnE htok htokens
    have hinit : ((List.replicate L (List.replicate nE (0 : ℚ))).getD l [])
        = List.replicate nE 0 := getD_replicate_lt L l _ [] hl
    obtain ⟨ha1, ha2, ha3⟩ := freq_fold_inv L nE l hl hnE stream
      (List.replicate L (List.replicate nE 0))
      (by rw [hinit]; simp)
      (by
        intro k hk
        rw [hinit, getD_replicate_lt nE k 0 0 hk])
      htok
    rw [hinit] at ha2
    simp only [List.sum_replicate, smul_zero, zero_add] at ha2
    have hfoldlen := fold_usage_length L accumFreqLayer stream
      (List.replicate L (List.replicate nE 0)) (by simp)
    have hres : (computeAllUsages smax UsageMode.frequency L nE stream).getD l []
        = divVec ((stream.foldl (fun us batch => (List.range L).map (fun m =>
            accumFreqLayer (us.getD m []) (batch.getD m [])))
            (List.replicate L (List.replicate nE 0))).getD l [])
          ((stream.foldl (fun us batch => (List.range L).map (fun m =>
            accumFreqLayer (us.getD m []) (batch.getD m [])))
            (List.replicate L (List.replicate nE 0))).getD l []).sum := by
      show ((stream.foldl (fun us batch => (List.range L).map (fun m =>
          accumFreqLayer (us.getD m []) (batch.getD m [])))
          (List.replicate L (List.replicate nE 0))).map
            (fun v => divVec v v.sum)).getD l [] = _
      rw [getD_map_lt (fun v => divVec v v.sum) _ l [] []
        (by rw [hfoldlen]; exact hl)]
    have hTQ : (1 : ℚ) ≤ (tokensAtLayer l stream : ℚ) := by exact_mod_cast htokens
    have hspos : (0 : ℚ) < 2 * (tokensAtLayer l stream : ℚ) := by linarith
    constructor
    · rw [hres, sum_divVec, ha2]
      exact div_self (by linarith)
    · intro k hk
      rw [hres]
      simp only [divVec]
      rw [getD_map_lt _ _ k 0 0 (by rw [ha1]; exact hk)]
      exact div_nonneg (ha3 k hk) (by rw [ha2]; linarith)
  · intro smax L nE stream
    rfl

/-- Witness for `compute_all_usages_spec`: one layer, two experts, one token
with logits `[0, 1]`. -/
theorem compute_all_usages_spec_witness :
    (((computeAllUsages (fun v => v) UsageMode.frequency 1 2 [[[[0, 1]]]]).getD 0 []).sum = 1 ∧
      (∀ k < 2,
        0 ≤ ((computeAllUsages (fun v => v) UsageMode.frequency 1 2
          [[[[0, 1]]]]).getD 0 []).getD k 0)) ∧
    computeAllUsages (fun v => v) UsageMode.routingScore 1 2 [[[[0, 1]]]] =
      [[[[0, 1]]]].foldl (fun us batch => (List.range 1).map (fun m =>
        accumScoreLayer (fun v => v) (us.getD m []) (batch.getD m [])))
        (List.replicate 1 (List.replicate 2 0)) :=
  ⟨compute_all_usages_spec.1 (fun v => v) 1 2 0 [[[[0, 1]]]] (by decide) (by decide)
      (by decide) (by decide),
   compute_all_usages_spec.2 (fun v => v) 1 2 [[[[0, 1]]]]⟩

/-!
## Similarity-basis configuration and dispatch
Embedding of the `ExpertsGrouperForMixtral.__init__` validation
(`grouping_mixtral.py`, lines 273-279 with the constants at lines 28-36),
of the `compute_all_similarities` dispatch (lines 1216-1239), and of the
`cluster_experts` dispatch (lines 504-554).
-/

/-- The keys of `SIMILARITY_MAPPING_FUNCTION`. -/
def SIMILARITY_MAPPING_KEYS : List String := ["cosine", "mse"]

/-- `LEGAL_SIMILARITY_BASES`. -/
def LEGAL_SIMILARITY_BASES : List String :=
  ["weight", "feature", "feature.abs", "weight-feature", "gradient", "weight-gradient",
   "router-logits", "router-weight", "router-weight-feature", "mse", "random", "no",
   "feature-correlation.lsa", "feature-correlation.max", "expert-output",
   "weight+expert-output", "router-logits+weight", "router-logits+expert-output",
   "router-logits+weight+expert-output"]

/-- Construction-time configuration errors (`ValueError` in `__init__`),
carrying the offending string for the descriptive message. -/
inductive ConfigErr where
  | badFn (fn : String)
  | badBase (base : String)
deriving DecidableEq

/-- Mid-run errors of `compute_all_similarities`: the missing-dataloader
`ValueError` and the `NotImplementedError` of the final `else`. -/
inductive SimStageErr where
  | missingDataloader
  | notImplemented
deriving DecidableEq

/-- The four similarity computations `compute_all_similarities` dispatches to. -/
inductive SimMethod where
  | byWeight
  | byRouterWeight
  | byRouterLogits
  | byExpertOutputs
deriving DecidableEq

/-- The seven clustering paths of `cluster_experts`. -/
inductive ClusterMethod where
  | weight
  | expertOutput
  | weightExpertOutput
  | routerScore
  | routerScoreWeight
  | routerScoreOutput
  | routerScoreWeightOutput
deriving DecidableEq

/-- The `ValueError` of `cluster_experts`'s final `else`. -/
inductive ClusterErr where
  | badBase (base : String)
deriving DecidableEq

/-- The validation in `ExpertsGrouperForMixtral.__init__`: reject a
`similarity_fn` outside `SIMILARITY_MAPPING_FUNCTION` and a
`similarity_base` outside `LEGAL_SIMILARITY_BASES`. -/
def grouperInitCheck (similarity_fn similarity_base : String) : Except ConfigErr Unit :=
  if similarity_fn ∉ SIMILARITY_MAPPING_KEYS then Except.error (ConfigErr.badFn similarity_fn)
  else if similarity_base ∉ LEGAL_SIMILARITY_BASES then
    Except.error (ConfigErr.badBase similarity_base)
  else Except.ok ()

/-- The dispatch of `compute_all_similarities`: a dataloader is required for
bases outside `{weight, router-weight, router-logits, expert-output}`, those
four are implemented, everything else hits `raise NotImplementedError`. -/
def computeAllSimilaritiesDispatch (base : String) (hasDataloader : Bool) :
    Except SimStageErr SimMethod :=
  if base ∉ (["weight", "router-weight", "router-logits", "expert-output"] : List String)
      ∧ hasDataloader = false then
    Except.error SimStageErr.missingDataloader
  else if base = "weight" then Except.ok SimMethod.byWeight
  else if base = "router-weight" then Except.ok SimMethod.byRouterWeight
  else if base = "router-logits" then Except.ok SimMethod.byRouterLogits
  else if base = "expert-output" then Except.ok SimMethod.byExpertOutputs
  else Except.error SimStageErr.notImplemented

/-- The dispatch of `cluster_experts`: seven supported bases, a `ValueError`
for everything else. -/
def clusterExpertsDispatch (base : String) : Except ClusterErr ClusterMethod :=
  if base = "weight" then Except.ok ClusterMethod.weight
  else if base = "expert-output" then Except.ok ClusterMethod.expertOutput
  else if base = "weight+expert-output" then Except.ok ClusterMethod.weightExpertOutput
  else if base = "router-logits" then Except.ok ClusterMethod.routerScore
  else if base = "router-logits+weight" then Except.ok ClusterMethod.routerScoreWeight
  else if base = "router-logits+expert-output" then
    Except.ok ClusterMethod.routerScoreOutput
  else if base = "router-logits+weight+expert-output" then
    Except.ok ClusterMethod.routerScoreWeightOutput
  else Except.error (ClusterErr.badBase base)

/-- Claim C9 is false in its second half: the basis `"feature"` is in
`LEGAL_SIMILARITY_BASES`, so construction succeeds, yet
`compute_all_similarities` fails mid-run with `NotImplementedError` and
`cluster_experts` fails mid-run with its unsupported-basis `ValueError`. -/
theorem accepted_base_fails_mid_run :
    grouperInitCheck "cosine" "feature" = Except.ok () ∧
    computeAllSimilaritiesDispatch "feature" true = Except.error SimStageErr.notImplemented ∧
    clusterExpertsDispatch "feature" = Except.error (ClusterErr.badBase "feature") := by
  refine ⟨by decide, by decide, by decide⟩

/-- Amended claim C9: construction rejects an unknown `similarity_fn` or
`similarity_base` with a descriptive `ValueError` and accepts everything in
the legal lists; but construction-time acceptance does not guarantee the
later stages run: `compute_all_similarities` supports only the four bases
`weight`, `router-weight`, `router-logits` and `expert-output` (raising
`NotImplementedError` otherwise), and some legal bases — for example
`"feature"` — pass construction and then fail mid-run in both
`compute_all_similarities` and `cluster_experts`. -/
theorem similarity_base_validation_spec :
    (∀ fn base : String, fn ∉ SIMILARITY_MAPPING_KEYS →
      grouperInitCheck fn base = Except.error (ConfigErr.badFn fn)) ∧
    (∀ fn base : String, fn ∈ SIMILARITY_MAPPING_KEYS → base ∉ LEGAL_SIMILARITY_BASES →
      grouperInitCheck fn base = Except.error (ConfigErr.badBase base)) ∧
    (∀ fn base : String, fn ∈ SIMILARITY_MAPPING_KEYS → base ∈ LEGAL_SIMILARITY_BASES →
      grouperInitCheck fn base = Except.ok ()) ∧
    (∀ base ∈ (["weight", "router-weight", "router-logits", "expert-output"] : List String),
      ∃ m, computeAllSimilaritiesDispatch base true = Except.ok m) ∧
    (∃ base ∈ LEGAL_SIMILARITY_BASES,
      grouperInitCheck "cosine" base = Except.ok () ∧
      computeAllSimilaritiesDispatch base true = Except.error SimStageErr.notImplemented ∧
      clusterExpertsDispatch base = Except.error (ClusterErr.badBase base)) := by
  refine ⟨?_, ?_, ?_, ?_, ?_⟩
  · intro fn base hfn
    unfold grouperInitCheck
    rw [if_pos hfn]
  · intro fn base hfn hbase
    unfold grouperInitCheck
    rw [if_neg (fun hc => hc hfn), if_pos hbase]
  · intro fn base hfn hbase
    unfold grouperInitCheck
    rw [if_neg (fun hc => hc hfn), if_neg (fun hc => hc hbase)]
  · intro base hbase
    simp only [List.mem_cons, List.not_mem_nil, or_false] at hbase
    rcases hbase with rfl | rfl | rfl | rfl
    · exact ⟨SimMethod.byWeight, by decide⟩
    · exact ⟨SimMethod.byRouterWeight, by decide⟩
    · exact ⟨SimMethod.byRouterLogits, by decide⟩
    · exact ⟨SimMethod.byExpertOutputs, by decide⟩
  · exact ⟨"feature", by decide, by decide, by decide, by decide⟩

/-- Witness for `similarity_base_validation_spec` at concrete strings. -/
theorem similarity_base_validation_spec_witness :
    grouperInitCheck "bogus" "weight" = Except.error (ConfigErr.badFn "bogus") ∧
    grouperInitCheck "cosine" "bogus" = Except.error (ConfigErr.badBase "bogus") ∧
    grouperInitCheck "cosine" "router-logits" = Except.ok () ∧
    (∃ m, computeAllSimilaritiesDispatch "weight" true = Except.ok m) :=
  ⟨similarity_base_validation_spec.1 "bogus" "weight" (by decide),
   similarity_base_validation_spec.2.1 "cosine" "bogus" (by decide) (by decide),
   similarity_base_validation_spec.2.2.1 "cosine" "router-logits" (by decide) (by decide),
   similarity_base_validation_spec.2.2.2.1 "weight" (by decide)⟩

/-!
## Greedy correlation "zip" merging
Embedding of the greedy-merging loop of
`_merge_mixtral_moe_by_activation_matching_within_and_across_models`
(`grouping_mixtral.py`, lines 2595-2643 / 2831-2892; `compute_merging` at
lines 2916-2935 runs the same loop on the permutation matrix).  Units are
the rows of the concatenated `w1`/`w3` (and columns of `w2` and of the
permutation matrix, stored transposed here); the correlation matrix has its
self-correlations pre-set to `-1`.  The correlation values produced by
`compute_covariance` lie strictly inside `(-1, 1)` thanks to `FP32_EPS` in
its denominator, which is the `corrWf` hypothesis below. -/

/-- The state of the greedy zip-merge loop. -/
structure ZipState where
  w1 : List (List ℚ)
  w3 : List (List ℚ)
  w2 : List (List ℚ)
  corr : List (List ℚ)
  coefs : List ℚ
  perm : List (List ℚ)
deriving DecidableEq

/-- Row-major flattened argmax with its row/column decoding
(`max_index = torch.argmax(corr_matrix)`;
`max_i, max_j = max_index // corr_matrix.shape[0], max_index % corr_matrix.shape[0]`). -/
def argmax2d (M : List (List ℚ)) : ℕ × ℕ :=
  (argmaxIdx M.flatten / M.length, argmaxIdx M.flatten % M.length)

/-- The coefficient-weighted average of two unit rows
(`(i_coef * x[max_i] + j_coef * x[max_j]) / (i_coef + j_coef + FP32_EPS)`). -/
def avgRow (eps ci cj : ℚ) (ri rj : List ℚ) : List ℚ :=
  List.zipWith (fun a b => (ci * a + cj * b) / (ci + cj + eps)) ri rj

/-- Write a column of a matrix (`corr_matrix[:, max_i] = updated_corr_vec`). -/
def setCol (M : List (List ℚ)) (j : ℕ) (v : List ℚ) : List (List ℚ) :=
  List.zipWith (fun row x => row.set j x) M v

/-- The correlation matrix right after one merge, before the absorbed
row/column is removed: row and column `max_i` are replaced by
`alpha * min(corr[max_i], corr[max_j])` elementwise, and the self-correlation
`(max_i, max_i)` is re-set to `-1`. -/
def zipitUpdatedCorr (alpha : ℚ) (M : List (List ℚ)) : List (List ℚ) :=
  setEntry
    (setCol
      (M.set (argmax2d M).1
        (List.zipWith (fun a b => alpha * min a b)
          (M.getD (argmax2d M).1 []) (M.getD (argmax2d M).2 [])))
      (argmax2d M).1
      (List.zipWith (fun a b => alpha * min a b)
        (M.getD (argmax2d M).1 []) (M.getD (argmax2d M).2 [])))
    (argmax2d M).1 (argmax2d M).1 (-1)

/-- One iteration of the greedy merging loop: pick the most-correlated pair,
merge unit `max_j` into unit `max_i` by the coefficient-weighted average,
update the correlation matrix, accumulate the coefficients and the
permutation column, and remove the absorbed row/column everywhere. -/
def zipitStep (eps alpha : ℚ) (st : ZipState) : ZipState :=
  ⟨List.eraseIdx (st.w1.set (argmax2d st.corr).1
      (avgRow eps (st.coefs.getD (argmax2d st.corr).1 0) (st.coefs.getD (argmax2d st.corr).2 0)
        (st.w1.getD (argmax2d st.corr).1 []) (st.w1.getD (argmax2d st.corr).2 [])))
      (argmax2d st.corr).2,
   List.eraseIdx (st.w3.set (argmax2d st.corr).1
      (avgRow eps (st.coefs.getD (argmax2d st.corr).1 0) (st.coefs.getD (argmax2d st.corr).2 0)
        (st.w3.getD (argmax2d st.corr).1 []) (st.w3.getD (argmax2d st.corr).2 [])))
      (argmax2d st.corr).2,
   List.eraseIdx (st.w2.set (argmax2d st.corr).1
      (avgRow eps (st.coefs.getD (argmax2d st.corr).1 0) (st.coefs.getD (argmax2d st.corr).2 0)
        (st.w2.getD (argmax2d st.corr).1 []) (st.w2.getD (argmax2d st.corr).2 [])))
      (argmax2d st.corr).2,
   List.eraseIdx ((zipitUpdatedCorr alpha st.corr).map
      (fun r => r.eraseIdx (argmax2d st.corr).2)) (argmax2d st.corr).2,
   List.eraseIdx (st.coefs.set (argmax2d st.corr).1
      (st.coefs.getD (argmax2d st.corr).1 0 + st.coefs.getD (argmax2d st.corr).2 0))
      (argmax2d st.corr).2,
   List.eraseIdx (st.perm.set (argmax2d st.corr).1
      (addVec (st.perm.getD (argmax2d st.corr).1 []) (st.perm.getD (argmax2d st.corr).2 [])))
      (argmax2d st.corr).2⟩

/-- The greedy loop (`while ffn_all_w1.shape[0] > d_ff`), fuel-bounded. -/
def zipitLoop (eps alpha : ℚ) (dff : ℕ) : ℕ → ZipState → Option ZipState
  | fuel, st =>
    if st.w1.length ≤ dff then some st
    else
      match fuel with
      | 0 => none
      | f + 1 => zipitLoop eps alpha dff f (zipitStep eps alpha st)

/-- An `n × n` matrix as a list of rows. -/
def IsSquare (n : ℕ) (M : List (List ℚ)) : Prop :=
  M.length = n ∧ ∀ a < n, (M.getD a []).length = n

/-- Well-formedness of the working correlation matrix: square, all
self-correlations pre-set to the sentinel `-1`, and every off-diagonal
entry strictly above `-1` (true of computed correlations thanks to the
epsilon-stabilised denominator). -/
def corrWf (n : ℕ) (M : List (List ℚ)) : Prop :=
  IsSquare n M ∧ (∀ a < n, getEntry M a a = -1) ∧
    (∀ a < n, ∀ b < n, a ≠ b → -1 < getEntry M a b)

instance (n : ℕ) (M : List (List ℚ)) : Decidable (IsSquare n M) := by
  unfold IsSquare
  infer_instance

instance (n : ℕ) (M : List (List ℚ)) : Decidable (corrWf n M) := by
  unfold corrWf
  infer_instance

/-- The pre-removal index corresponding to post-removal index `k` after
deleting index `j`. -/
def shiftIdx (j k : ℕ) : ℕ := if k < j then k else k + 1

theorem getD_eraseIdx_shift {α : Type} (l : List α) (j k : ℕ) (d : α)
    (hj : j < l.length) (hk : k < l.length - 1) :
    (l.eraseIdx j).getD k d = l.getD (shiftIdx j k) d := by
  have hkl : k < (l.eraseIdx j).length := by
    rw [List.length_eraseIdx, if_pos hj]
    exact hk
  rw [List.getD_eq_getElem _ d hkl, List.getElem_eraseIdx]
  by_cases hkj : k < j
  · rw [dif_pos hkj]
    have hsh : shiftIdx j k = k := if_pos hkj
    rw [hsh, List.getD_eq_getElem l d (by omega)]
  · rw [dif_neg hkj]
    have hsh : shiftIdx j k = k + 1 := if_neg hkj
    rw [hsh, List.getD_eq_getElem l d (by omega)]

theorem getD_zipWith {α β γ : Type} (f : α → β → γ) (l1 : List α) (l2 : List β)
    (k : ℕ) (d : γ) (d1 : α) (d2 : β) (hk1 : k < l1.length) (hk2 : k < l2.length) :
    (List.zipWith f l1 l2).getD k d = f (l1.getD k d1) (l2.getD k d2) := by
  rw [List.getD_eq_getElem _ d (by rw [List.length_zipWith]; exact lt_min hk1 hk2),
    List.getD_eq_getElem l1 d1 hk1, List.getD_eq_getElem l2 d2 hk2,
    List.getElem_zipWith]

theorem setCol_length (M : List (List ℚ)) (j : ℕ) (v : List ℚ) :
    (setCol M j v).length = min M.length v.length := by
  simp [setCol]

theorem setCol_getD (M : List (List ℚ)) (j : ℕ) (v : List ℚ) (a : ℕ)
    (ha : a < M.length) (hav : a < v.length) :
    (setCol M j v).getD a [] = (M.getD a []).set j (v.getD a 0) := by
  exact getD_zipWith (fun row x => row.set j x) M v a [] [] 0 ha hav

theorem shiftIdx_lt (j k n : ℕ) (hk : k < n - 1) : shiftIdx j k < n := by
  unfold shiftIdx
  split <;> omega

theorem shiftIdx_ne_removed (j k : ℕ) : shiftIdx j k ≠ j := by
  unfold shiftIdx
  split <;> omega

theorem shiftIdx_inj (j a b : ℕ) (h : a ≠ b) : shiftIdx j a ≠ shiftIdx j b := by
  unfold shiftIdx
  split <;> split <;> omega

theorem isSquare_rows_mem (n : ℕ) (M : List (List ℚ)) (h : IsSquare n M) :
    ∀ r ∈ M, r.length = n := by
  intro r hr
  obtain ⟨i, hi, rfl⟩ := List.getElem_of_mem hr
  have h2 := h.2 i (by rw [← h.1]; exact hi)
  rw [List.getD_eq_getElem M [] hi] at h2
  exact h2

theorem flatten_length_square (M : List (List ℚ)) (n : ℕ) (h : IsSquare n M) :
    M.flatten.length = n * n := by
  rw [List.length_flatten]
  have hmap : M.map List.length = List.replicate n n := by
    rw [List.eq_replicate_iff]
    constructor
    · rw [List.length_map]; exact h.1
    · intro b hb
      obtain ⟨r, hr, rfl⟩ := List.mem_map.mp hb
      exact isSquare_rows_mem n M h r hr
  rw [hmap, List.sum_replicate, smul_eq_mul]

theorem getD_append_plus {α : Type} (l l2 : List α) (k : ℕ) (d : α) :
    (l ++ l2).getD (l.length + k) d = l2.getD k d := by
  simp only [List.getD_eq_getElem?_getD]
  rw [List.getElem?_append_right (by omega)]
  simp

theorem flatten_getD_rows (w : ℕ) :
    ∀ (M : List (List ℚ)) (a b : ℕ),
      (∀ r ∈ M, r.length = w) → a < M.length → b < w →
      M.flatten.getD (a * w + b) 0 = (M.getD a []).getD b 0 := by
  intro M
  induction M with
  | nil =>
    intro a b _ ha _
    simp at ha
  | cons r rest ih =>
    intro a b hrows ha hb
    have hr : r.length = w := hrows r (by simp)
    rcases a with _ | a
    · rw [List.flatten_cons]
      simp only [Nat.zero_mul, Nat.zero_add, List.getD_cons_zero]
      exact List.getD_append r rest.flatten 0 b (by rw [hr]; exact hb)
    · rw [List.flatten_cons]
      have hidx : (a + 1) * w + b = r.length + (a * w + b) := by
        rw [hr]; ring
      rw [hidx, getD_append_plus, List.getD_cons_succ]
      exact ih a b (fun u hu => hrows u (by simp [hu])) (by simpa using ha) hb

theorem argmax2d_lt (M : List (List ℚ)) (n : ℕ) (hn : 1 ≤ n) (hsq : IsSquare n M) :
    (argmax2d M).1 < n ∧ (argmax2d M).2 < n := by
  have hfl : M.flatten.length = n * n := flatten_length_square M n hsq
  have hflne : M.flatten ≠ [] := by
    intro hc
    rw [hc] at hfl
    have : 0 < n * n := Nat.mul_pos (by omega) (by omega)
    simp at hfl
    omega
  have hflat := argmaxIdx_lt_length M.flatten hflne
  rw [hfl] at hflat
  constructor
  · show argmaxIdx M.flatten / M.length < n
    rw [hsq.1]
    exact (Nat.div_lt_iff_lt_mul (by omega)).mpr hflat
  · show argmaxIdx M.flatten % M.length < n
    rw [hsq.1]
    exact Nat.mod_lt _ (by omega)

theorem argmax2d_max (M : List (List ℚ)) (n : ℕ) (hn : 1 ≤ n) (hsq : IsSquare n M) :
    ∀ a < n, ∀ b < n, getEntry M a b ≤ getEntry M (argmax2d M).1 (argmax2d M).2 := by
  have hfl : M.flatten.length = n * n := flatten_length_square M n hsq
  have hrows := isSquare_rows_mem n M hsq
  have hflne : M.flatten ≠ [] := by
    intro hc
    rw [hc] at hfl
    have : 0 < n * n := Nat.mul_pos (by omega) (by omega)
    simp at hfl
    omega
  have hflat := argmaxIdx_lt_length M.flatten hflne
  rw [hfl] at hflat
  obtain ⟨hi, hj⟩ := argmax2d_lt M n hn hsq
  intro a ha b hb
  have hab : a * n + b < n * n := by
    calc a * n + b < a * n + n := by omega
    _ = (a + 1) * n := by ring
    _ ≤ n * n := Nat.mul_le_mul_right n (by omega)
  have h1 := getD_argmaxIdx_ge M.flatten (a * n + b) (by rw [hfl]; exact hab)
  rw [flatten_getD_rows n M a b hrows (by rw [hsq.1]; exact ha) hb] at h1
  have hdecomp : (argmax2d M).1 * n + (argmax2d M).2 = argmaxIdx M.flatten := by
    show (argmaxIdx M.flatten / M.length) * n + argmaxIdx M.flatten % M.length = _
    rw [hsq.1, Nat.mul_comm]
    exact Nat.div_add_mod _ n
  rw [← hdecomp] at h1
  rw [flatten_getD_rows n M _ _ hrows (by rw [hsq.1]; exact hi) hj] at h1
  exact h1

theorem argmax2d_off_diagonal (M : List (List ℚ)) (n : ℕ) (hn : 2 ≤ n)
    (hwf : corrWf n M) : (argmax2d M).1 ≠ (argmax2d M).2 := by
  obtain ⟨hsq, hdiag, hoff⟩ := hwf
  intro heq
  have h01 := argmax2d_max M n (by omega) hsq 0 (by omega) 1 (by omega)
  rw [← heq] at h01
  rw [hdiag (argmax2d M).1 (argmax2d_lt M n (by omega) hsq).1] at h01
  have := hoff 0 (by omega) 1 (by omega) (by omega)
  linarith

theorem setEntry_getD_row (M : List (List ℚ)) (i j : ℕ) (v : ℚ) (a : ℕ) :
    (setEntry M i j v).getD a []
      = if i = a ∧ i < M.length then (M.getD i []).set j v else M.getD a [] := by
  simp only [setEntry]
  exact getD_set M i a ((M.getD i []).set j v) []

theorem updMatrix_entries (M : List (List ℚ)) (n i : ℕ) (upd : List ℚ)
    (hlen : M.length = n) (hrows : ∀ a < n, (M.getD a []).length = n)
    (hi : i < n) (hupd : upd.length = n) :
    (getEntry (setEntry (setCol (M.set i upd) i upd) i i (-1)) i i = -1) ∧
    (∀ k < n, k ≠ i →
      getEntry (setEntry (setCol (M.set i upd) i upd) i i (-1)) i k = upd.getD k 0) ∧
    (∀ k < n, k ≠ i →
      getEntry (setEntry (setCol (M.set i upd) i upd) i i (-1)) k i = upd.getD k 0) ∧
    (∀ a < n, ∀ b < n, a ≠ i → b ≠ i →
      getEntry (setEntry (setCol (M.set i upd) i upd) i i (-1)) a b = getEntry M a b) ∧
    IsSquare n (setEntry (setCol (M.set i upd) i upd) i i (-1)) := by
  have hinner_len : (M.set i upd).length = n := by simp [hlen]
  have hinner_row : ∀ a < n, (M.set i upd).getD a []
      = if i = a ∧ i < M.length then upd else M.getD a [] := by
    intro a _
    exact getD_set M i a upd []
  have hinner_row_len : ∀ a < n, ((M.set i upd).getD a []).length = n := by
    intro a ha
    rw [hinner_row a ha]
    by_cases hc : i = a ∧ i < M.length
    · rw [if_pos hc]; exact hupd
    · rw [if_neg hc]; exact hrows a ha
  have hmid_len : (setCol (M.set i upd) i upd).length = n := by
    rw [setCol_length, hinner_len, hupd]
    simp
  have hmid_row : ∀ a < n, (setCol (M.set i upd) i upd).getD a []
      = ((M.set i upd).getD a []).set i (upd.getD a 0) := by
    intro a ha
    exact setCol_getD (M.set i upd) i upd a (by rw [hinner_len]; exact ha)
      (by rw [hupd]; exact ha)
  have hmid_row_len : ∀ a < n, ((setCol (M.set i upd) i upd).getD a []).length = n := by
    intro a ha
    rw [hmid_row a ha, List.length_set]
    exact hinner_row_len a ha
  refine ⟨?_, ?_, ?_, ?_, ?_, ?_⟩
  · exact getEntry_setEntry_self _ i i _ (by rw [hmid_len]; exact hi)
      (by rw [hmid_row_len i hi]; exact hi)
  · intro k hk hki
    rw [getEntry_setEntry_ne _ i i i k _ (Or.inr hki)]
    show ((setCol (M.set i upd) i upd).getD i []).getD k 0 = _
    rw [hmid_row i hi, hinner_row i hi, if_pos ⟨rfl, by rw [hlen]; exact hi⟩]
    rw [getD_set upd i k (upd.getD i 0) 0, if_neg (fun hc => hki hc.1.symm)]
  · intro k hk hki
    rw [getEntry_setEntry_ne _ i i k i _ (Or.inl hki)]
    show ((setCol (M.set i upd) i upd).getD k []).getD i 0 = _
    rw [hmid_row k hk, getD_set_self _ i _ 0 (by rw [hinner_row_len k hk]; exact hi)]
  · intro a ha b hb hai hbi
    rw [getEntry_setEntry_ne _ i i a b _ (Or.inl hai)]
    show ((setCol (M.set i upd) i upd).getD a []).getD b 0 = _
    rw [hmid_row a ha, getD_set, if_neg (fun hc => hbi hc.1.symm)]
    rw [hinner_row a ha, if_neg (fun hc => hai hc.1.symm)]
    rfl
  · rw [setEntry_length, hmid_len]
  · intro a ha
    rw [setEntry_getD_row]
    by_cases hc : i = a ∧ i < (setCol (M.set i upd) i upd).length
    · rw [if_pos hc, List.length_set]
      exact hmid_row_len i hi
    · rw [if_neg hc]
      exact hmid_row_len a ha

theorem neg_one_lt_alpha_mul (alpha x : ℚ) (hx : -1 < x) (ha1 : 0 < alpha)
    (ha2 : alpha ≤ 1) : -1 < alpha * x := by
  rcases le_or_lt 0 x with h | h
  · have := mul_nonneg (le_of_lt ha1) h
    linarith
  · nlinarith

theorem zipitUpdatedCorr_spec (alpha : ℚ) (M : List (List ℚ)) (n : ℕ)
    (hn : 1 ≤ n) (hsq : IsSquare n M) :
    (getEntry (zipitUpdatedCorr alpha M) (argmax2d M).1 (argmax2d M).1 = -1) ∧
    (∀ k < n, k ≠ (argmax2d M).1 →
      getEntry (zipitUpdatedCorr alpha M) (argmax2d M).1 k
        = alpha * min (getEntry M (argmax2d M).1 k) (getEntry M (argmax2d M).2 k)) ∧
    (∀ k < n, k ≠ (argmax2d M).1 →
      getEntry (zipitUpdatedCorr alpha M) k (argmax2d M).1
        = alpha * min (getEntry M (argmax2d M).1 k) (getEntry M (argmax2d M).2 k)) ∧
    (∀ a < n, ∀ b < n, a ≠ (argmax2d M).1 → b ≠ (argmax2d M).1 →
      getEntry (zipitUpdatedCorr alpha M) a b = getEntry M a b) ∧
    IsSquare n (zipitUpdatedCorr alpha M) := by
  obtain ⟨hi, hj⟩ := argmax2d_lt M n hn hsq
  have hrowi := hsq.2 _ hi
  have hrowj := hsq.2 _ hj
  have hupdlen : (List.zipWith (fun a b => alpha * min a b)
      (M.getD (argmax2d M).1 []) (M.getD (argmax2d M).2 [])).length = n := by
    rw [List.length_zipWith, hrowi, hrowj]
    simp
  have hupdk : ∀ k < n, (List.zipWith (fun a b => alpha * min a b)
      (M.getD (argmax2d M).1 []) (M.getD (argmax2d M).2 [])).getD k 0
      = alpha * min (getEntry M (argmax2d M).1 k) (getEntry M (argmax2d M).2 k) := by
    intro k hk
    exact getD_zipWith _ _ _ k 0 0 0 (by rw [hrowi]; exact hk) (by rw [hrowj]; exact hk)
  obtain ⟨h1, h2, h3, h4, h5⟩ := updMatrix_entries M n (argmax2d M).1
    (List.zipWith (fun a b => alpha * min a b)
      (M.getD (argmax2d M).1 []) (M.getD (argmax2d M).2 []))
    hsq.1 hsq.2 hi hupdlen
  exact ⟨h1, fun k hk hki => by simp only [zipitUpdatedCorr]; rw [h2 k hk hki, hupdk k hk],
    fun k hk hki => by simp only [zipitUpdatedCorr]; rw [h3 k hk hki, hupdk k hk], h4, h5⟩

theorem getEntry_eraseRC (M : List (List ℚ)) (n j a b : ℕ)
    (hlen : M.length = n) (hrows : ∀ r < n, (M.getD r []).length = n)
    (hj : j < n) (ha : a < n - 1) (hb : b < n - 1) :
    getEntry (List.eraseIdx (M.map (fun r => r.eraseIdx j)) j) a b
      = getEntry M (shiftIdx j a) (shiftIdx j b) := by
  have hsa : shiftIdx j a < n := shiftIdx_lt j a n ha
  show ((List.eraseIdx (M.map (fun r => r.eraseIdx j)) j).getD a []).getD b 0 = _
  rw [getD_eraseIdx_shift (M.map (fun r => r.eraseIdx j)) j a []
    (by rw [List.length_map, hlen]; exact hj)
    (by rw [List.length_map, hlen]; exact ha)]
  rw [getD_map_lt (fun r => r.eraseIdx j) M (shiftIdx j a) [] [] (by rw [hlen]; exact hsa)]
  exact getD_eraseIdx_shift (M.getD (shiftIdx j a) []) j b 0
    (by rw [hrows _ hsa]; exact hj) (by rw [hrows _ hsa]; exact hb)

theorem zipitStep_corr_entry (eps alpha : ℚ) (st : ZipState) (n : ℕ)
    (hn : 1 ≤ n) (hsq : IsSquare n st.corr) (a b : ℕ) (ha : a < n - 1) (hb : b < n - 1) :
    getEntry (zipitStep eps alpha st).corr a b
      = getEntry (zipitUpdatedCorr alpha st.corr)
          (shiftIdx (argmax2d st.corr).2 a) (shiftIdx (argmax2d st.corr).2 b) := by
  obtain ⟨hi, hj⟩ := argmax2d_lt st.corr n hn hsq
  have husq := (zipitUpdatedCorr_spec alpha st.corr n hn hsq).2.2.2.2
  show getEntry (List.eraseIdx ((zipitUpdatedCorr alpha st.corr).map
      (fun r => r.eraseIdx (argmax2d st.corr).2)) (argmax2d st.corr).2) a b = _
  exact getEntry_eraseRC (zipitUpdatedCorr alpha st.corr) n (argmax2d st.corr).2 a b
    husq.1 husq.2 hj ha hb

theorem zipitStep_corr_isSquare (eps alpha : ℚ) (st : ZipState) (n : ℕ)
    (hn : 1 ≤ n) (hsq : IsSquare n st.corr) :
    IsSquare (n - 1) (zipitStep eps alpha st).corr := by
  obtain ⟨hi, hj⟩ := argmax2d_lt st.corr n hn hsq
  have husq := (zipitUpdatedCorr_spec alpha st.corr n hn hsq).2.2.2.2
  constructor
  · show (List.eraseIdx ((zipitUpdatedCorr alpha st.corr).map
      (fun r => r.eraseIdx (argmax2d st.corr).2)) (argmax2d st.corr).2).length = n - 1
    rw [List.length_eraseIdx, List.length_map, husq.1, if_pos hj]
  · intro a ha
    show ((List.eraseIdx ((zipitUpdatedCorr alpha st.corr).map
      (fun r => r.eraseIdx (argmax2d st.corr).2)) (argmax2d st.corr).2).getD a []).length
        = n - 1
    rw [getD_eraseIdx_shift _ _ a [] (by rw [List.length_map, husq.1]; exact hj)
      (by rw [List.length_map, husq.1]; exact ha)]
    have hsa : shiftIdx (argmax2d st.corr).2 a < n := shiftIdx_lt _ a n ha
    rw [getD_map_lt _ _ _ [] [] (by rw [husq.1]; exact hsa)]
    rw [List.length_eraseIdx, husq.2 _ hsa, if_pos hj]

theorem zipitStep_corrWf (eps alpha : ℚ) (st : ZipState) (n : ℕ)
    (hn : 2 ≤ n) (hwf : corrWf n st.corr) (hal : 0 < alpha) (hau : alpha ≤ 1) :
    corrWf (n - 1) (zipitStep eps alpha st).corr := by
  obtain ⟨hsq, hdiag, hoff⟩ := hwf
  obtain ⟨hi, hj⟩ := argmax2d_lt st.corr n (by omega) hsq
  obtain ⟨hu1, hu2, hu3, hu4, husq⟩ := zipitUpdatedCorr_spec alpha st.corr n (by omega) hsq
  refine ⟨zipitStep_corr_isSquare eps alpha st n (by omega) hsq, ?_, ?_⟩
  · intro a ha
    rw [zipitStep_corr_entry eps alpha st n (by omega) hsq a a ha ha]
    have hsa : shiftIdx (argmax2d st.corr).2 a < n := shiftIdx_lt _ a n ha
    by_cases hc : shiftIdx (argmax2d st.corr).2 a = (argmax2d st.corr).1
    · rw [hc]
      exact hu1
    · rw [hu4 _ hsa _ hsa hc hc]
      exact hdiag _ hsa
  · intro a ha b hb hab
    rw [zipitStep_corr_entry eps alpha st n (by omega) hsq a b ha hb]
    have hsa : shiftIdx (argmax2d st.corr).2 a < n := shiftIdx_lt _ a n ha
    have hsb : shiftIdx (argmax2d st.corr).2 b < n := shiftIdx_lt _ b n hb
    have hab0 : shiftIdx (argmax2d st.corr).2 a ≠ shiftIdx (argmax2d st.corr).2 b :=
      shiftIdx_inj _ a b hab
    have haj : shiftIdx (argmax2d st.corr).2 a ≠ (argmax2d st.corr).2 :=
      shiftIdx_ne_removed _ a
    have hbj : shiftIdx (argmax2d st.corr).2 b ≠ (argmax2d st.corr).2 :=
      shiftIdx_ne_removed _ b
    by_cases hca : shiftIdx (argmax2d st.corr).2 a = (argmax2d st.corr).1
    · have hbne : shiftIdx (argmax2d st.corr).2 b ≠ (argmax2d st.corr).1 := by
        rw [← hca]
        exact fun h => hab0 h.symm
      rw [hca, hu2 _ hsb hbne]
      refine neg_one_lt_alpha_mul alpha _ ?_ hal hau
      have h1 := hoff (argmax2d st.corr).1 hi _ hsb (fun h => hbne h.symm)
      have h2 := hoff (argmax2d st.corr).2 hj _ hsb (fun h => hbj h.symm)
      exact lt_min h1 h2
    · by_cases hcb : shiftIdx (argmax2d st.corr).2 b = (argmax2d st.corr).1
      · rw [hcb, hu3 _ hsa hca]
        refine neg_one_lt_alpha_mul alpha _ ?_ hal hau
        have h1 := hoff (argmax2d st.corr).1 hi _ hsa (fun h => hca h.symm)
        have h2 := hoff (argmax2d st.corr).2 hj _ hsa (fun h => haj h.symm)
        exact lt_min h1 h2
      · rw [hu4 _ hsa _ hsb hca hcb]
        exact hoff _ hsa _ hsb hab0

theorem zipitStep_w1_length (eps alpha : ℚ) (st : ZipState) (n : ℕ)
    (hn : 1 ≤ n) (hsq : IsSquare n st.corr) (hw : st.w1.length = n) :
    (zipitStep eps alpha st).w1.length = n - 1 := by
  obtain ⟨hi, hj⟩ := argmax2d_lt st.corr n hn hsq
  show (List.eraseIdx (st.w1.set _ _) _).length = n - 1
  rw [List.length_eraseIdx, List.length_set, hw, if_pos hj]

theorem zipitLoop_terminates (eps alpha : ℚ) (dff : ℕ) :
    ∀ (fuel n : ℕ) (st : ZipState),
      IsSquare n st.corr → st.w1.length = n → dff ≤ n → n - dff ≤ fuel →
      ∃ st2, zipitLoop eps alpha dff fuel st = some st2 ∧ st2.w1.length = dff := by
  intro fuel
  induction fuel with
  | zero =>
    intro n st hsq hw hdn hfuel
    have hle : st.w1.length ≤ dff := by omega
    exact ⟨st, by rw [zipitLoop, if_pos hle], by omega⟩
  | succ f ih =>
    intro n st hsq hw hdn hfuel
    by_cases hguard : st.w1.length ≤ dff
    · exact ⟨st, by rw [zipitLoop, if_pos hguard], by omega⟩
    · have hn1 : 1 ≤ n := by omega
      obtain ⟨st2, hrun, hlen⟩ := ih (n - 1) (zipitStep eps alpha st)
        (zipitStep_corr_isSquare eps alpha st n hn1 hsq)
        (zipitStep_w1_length eps alpha st n hn1 hsq hw)
        (by omega) (by omega)
      refine ⟨st2, ?_, hlen⟩
      rw [zipitLoop, if_neg hguard]
      exact hrun

/-- Concrete two-unit starting state for the greedy zip-merge loop. -/
def zipitSt0 : ZipState :=
  ⟨[[1], [2]], [[1], [2]], [[1], [2]], [[-1, 5], [5, -1]], [1, 1], [[1, 0], [0, 1]]⟩

/-- C6: In the greedy zip merge loop, every iteration selects the pair of
units with the highest off-diagonal correlation, merges them into the first
unit by the coefficient-weighted average, replaces the merged unit's
correlation row and column with `alpha` times the elementwise minimum of the
two merged rows, sets the merged unit's self-correlation to `-1` (below the
valid open range `(-1, 1)` of computed correlations), removes the absorbed
row and column, and repeats until the number of remaining units equals the
target dimension `d_ff`. -/
theorem zipit_greedy_merge_spec (eps alpha : ℚ) (st : ZipState) (n : ℕ)
    (hn : 2 ≤ n) (hwf : corrWf n st.corr) (hw : st.w1.length = n)
    (hal : 0 < alpha) (hau : alpha ≤ 1) :
    ((argmax2d st.corr).1 < n ∧ (argmax2d st.corr).2 < n ∧
      (argmax2d st.corr).1 ≠ (argmax2d st.corr).2 ∧
      ∀ a < n, ∀ b < n,
        getEntry st.corr a b
          ≤ getEntry st.corr (argmax2d st.corr).1 (argmax2d st.corr).2) ∧
    ((zipitStep eps alpha st).w1
        = List.eraseIdx (st.w1.set (argmax2d st.corr).1
            (avgRow eps (st.coefs.getD (argmax2d st.corr).1 0)
              (st.coefs.getD (argmax2d st.corr).2 0)
              (st.w1.getD (argmax2d st.corr).1 [])
              (st.w1.getD (argmax2d st.corr).2 [])))
            (argmax2d st.corr).2
      ∧ (zipitStep eps alpha st).w1.length = n - 1) ∧
    ((getEntry (zipitUpdatedCorr alpha st.corr)
        (argmax2d st.corr).1 (argmax2d st.corr).1 = -1) ∧
     (∀ k < n, k ≠ (argmax2d st.corr).1 →
        getEntry (zipitUpdatedCorr alpha st.corr) (argmax2d st.corr).1 k
          = alpha * min (getEntry st.corr (argmax2d st.corr).1 k)
              (getEntry st.corr (argmax2d st.corr).2 k) ∧
        getEntry (zipitUpdatedCorr alpha st.corr) k (argmax2d st.corr).1
          = alpha * min (getEntry st.corr (argmax2d st.corr).1 k)
              (getEntry st.corr (argmax2d st.corr).2 k)) ∧
     (∀ a < n, ∀ b < n, a ≠ (argmax2d st.corr).1 → b ≠ (argmax2d st.corr).1 →
        getEntry (zipitUpdatedCorr alpha st.corr) a b = getEntry st.corr a b) ∧
     (∀ a < n - 1, ∀ b < n - 1,
        getEntry (zipitStep eps alpha st).corr a b
          = getEntry (zipitUpdatedCorr alpha st.corr)
              (shiftIdx (argmax2d st.corr).2 a) (shiftIdx (argmax2d st.corr).2 b))) ∧
    corrWf (n - 1) (zipitStep eps alpha st).corr ∧
    (∀ dff fuel : ℕ, dff ≤ n → n - dff ≤ fuel →
      ∃ st2, zipitLoop eps alpha dff fuel st = some st2 ∧ st2.w1.length = dff) := by
  have hsq := hwf.1
  have hn1 : 1 ≤ n := by omega
  obtain ⟨hu1, hu2, hu3, hu4, husq⟩ := zipitUpdatedCorr_spec alpha st.corr n hn1 hsq
  refine ⟨⟨(argmax2d_lt st.corr n hn1 hsq).1, (argmax2d_lt st.corr n hn1 hsq).2,
      argmax2d_off_diagonal st.corr n hn hwf, argmax2d_max st.corr n hn1 hsq⟩,
    ⟨rfl, zipitStep_w1_length eps alpha st n hn1 hsq hw⟩,
    ⟨hu1, fun k hk hki => ⟨hu2 k hk hki, hu3 k hk hki⟩, hu4,
      fun a ha b hb => zipitStep_corr_entry eps alpha st n hn1 hsq a b ha hb⟩,
    zipitStep_corrWf eps alpha st n hn hwf hal hau,
    fun dff fuel hdn hfuel =>
      zipitLoop_terminates eps alpha dff fuel n st hsq hw hdn hfuel⟩

/-- Witness for `zipit_greedy_merge_spec` at the concrete two-unit state:
starting from two units, one fuel step of the loop with target `d_ff = 1`
returns a state with exactly one unit. -/
theorem zipit_greedy_merge_spec_witness :
    2 ≤ 2 ∧ corrWf 2 zipitSt0.corr ∧ zipitSt0.w1.length = 2 ∧
    (0 < (1 : ℚ)) ∧ ((1 : ℚ) ≤ 1) ∧
    (∃ st2, zipitLoop 1 1 1 1 zipitSt0 = some st2 ∧ st2.w1.length = 1) :=
  ⟨by decide, by decide, by decide, by decide, by decide,
   (zipit_greedy_merge_spec 1 1 zipitSt0 2 (by decide) (by decide) (by decide)
      (by decide) (by decide)).2.2.2.2 1 1 (by decide) (by decide)⟩
